import Mathlib

/-!
# Subtour decomposition and lazy subtour-elimination cuts

A shallow embedding of `src/cpp/tour.hpp`, `src/modelo/elimination.hpp` and the
exit-code logic of `src/modelo/main.cpp`.

Modelling conventions.

* `unsigned` / `size_t` indices are natural numbers.  Every index used by the
  decomposer is below the vertex count, and an `n × n` matrix of `bool` with
  `n ≥ 2^32` cannot be allocated, so no index arithmetic wraps.  The one place
  where the source subtracts on `size_t` (`tour.size()-1`, the bound of the cut)
  is modelled with its explicit reduction modulo `2^64`.
* `std::span<const vertex> vertices` is only ever asked for its `size()` by the
  decomposer and by the cut generator; it is represented by that size.
* `utils::matrix<Item>` is a flat buffer addressed by `idx * size + col`,
  exactly as `operator[]` computes it.  The buffer is a map from offsets to
  items; a freshly allocated matrix (`new Item[n * n]`) has arbitrary content.
* `std::vector<bool> seen` is a `List Bool`; `seen[v]` is `getD v false` and
  `seen[v] = true` is `List.set`.
* `while` loops whose termination is not syntactic carry a fuel argument and
  return `none` when the fuel runs out; the lemmas
  `tour.min_sub_tour_fuel_eq` and `tour.all_tours_fuel_eq` show that any fuel
  above the vertex count is enough.
-/

namespace utils

/-- The class `utils::matrix<Item>`: `len` and a flat `buffer` of `len * len` items. -/
structure matrix (Item : Type) where
  buffer : Nat → Item
  len : Nat

namespace matrix

variable {Item : Type}

/-- The member `matrix::size()`. -/
def size (m : matrix Item) : Nat := m.len

/-- Read access `m[u][v]`: the span of row `u` starts at `buffer + u * size()`. -/
def get (m : matrix Item) (u v : Nat) : Item := m.buffer (u * m.size + v)

/-- Write access `m[u][v] = x`. -/
def set (m : matrix Item) (u v : Nat) (x : Item) : matrix Item :=
  { m with buffer := Function.update m.buffer (u * m.size + v) x }

/-- A literal matrix given by its rows (used for concrete instances only). -/
def ofRows (rows : List (List Bool)) : matrix Bool :=
  { buffer := fun k => (rows.getD (k / rows.length) []).getD (k % rows.length) false
    len := rows.length }

end matrix

end utils

/-- The class `tour`: a `std::vector<unsigned>` of vertex indices. -/
abbrev tour := List Nat

namespace tour

/-- The class `tour::iter_tours`: the `seen` markers, the number of vertices and the matrix. -/
structure iter_tours where
  seen : List Bool
  count : Nat
  solution : utils.matrix Bool

namespace iter_tours

/-- The constructor: `seen(vertices.size(), false)`. -/
def init (count : Nat) (solution : utils.matrix Bool) : iter_tours :=
  { seen := List.replicate count false, count := count, solution := solution }

/-- The read `this->seen[v]`. -/
def is_seen (it : iter_tours) (v : Nat) : Bool := it.seen.getD v false

/-- The write `this->seen[node] = true`. -/
def mark (it : iter_tours) (node : Nat) : iter_tours :=
  { it with seen := it.seen.set node true }

/-- The method `new_node`: the first `node < count()` with `!seen[node]`. -/
def new_node (it : iter_tours) : Option Nat :=
  (List.range it.count).find? (fun node => !it.is_seen node)

/-- The method `best_next`: the first `v < count()` with `solution[u][v] && !seen[v]`. -/
def best_next (it : iter_tours) (u : Nat) : Option Nat :=
  (List.range it.count).find? (fun v => it.solution.get u v && !it.is_seen v)

/-- The loop of `next_tour(unsigned node)`; the first argument is the counter `len`. -/
def next_tour_from : Nat → iter_tours → Nat → tour → tour × iter_tours
  | 0, it, _, vertices => (vertices, it)
  | len + 1, it, node, vertices =>
    match (it.mark node).best_next node with
    | some next => next_tour_from len (it.mark node) next (vertices ++ [node])
    | none => (vertices ++ [node], it.mark node)

/-- The public method `next_tour()`: `nullopt` when no unseen vertex is left. -/
def next_tour (it : iter_tours) : Option (tour × iter_tours) :=
  match it.new_node with
  | some node => some (next_tour_from it.count it node [])
  | none => none

end iter_tours

/-- The decomposition: `next_tour()` called until it yields nothing (`none`: out of fuel). -/
def all_tours_fuel : Nat → iter_tours → Option (List tour)
  | 0, _ => none
  | fuel + 1, it =>
    match it.next_tour with
    | none => some []
    | some (t, it1) => (all_tours_fuel fuel it1).map (fun ts => t :: ts)

/-- The tours of the decomposition of `solution` over `count` vertices, in the order produced. -/
def all_tours (count : Nat) (solution : utils.matrix Bool) : List tour :=
  (all_tours_fuel (count + 1) (iter_tours.init count solution)).getD []

/-- The `while` loop of `min_sub_tour` (`none`: out of fuel). -/
def min_sub_tour_loop : Nat → iter_tours → tour → Option tour
  | 0, _, _ => none
  | fuel + 1, it, min_tour =>
    match it.next_tour with
    | none => some min_tour
    | some (t, it1) =>
      min_sub_tour_loop fuel it1 (if t.length < min_tour.length then t else min_tour)

/-- The body of `tour::min_sub_tour` with a bound on the iterations of its loop. -/
def min_sub_tour_fuel (fuel count : Nat) (solution : utils.matrix Bool) : Option tour :=
  match (iter_tours.init count solution).next_tour with
  | some (first, it1) => min_sub_tour_loop fuel it1 first
  | none => some []

/-- The function `tour::min_sub_tour(vertices, solution)`, `count = vertices.size()`. -/
def min_sub_tour (count : Nat) (solution : utils.matrix Bool) : tour :=
  (min_sub_tour_fuel count count solution).getD []

end tour

namespace utils

/-- The inner loop of `get_solutions`: `for (v = u + 1; v < size; v++)`. -/
def get_solutions_row (size : Nat) (get_solution : Nat → Nat → Bool) (u : Nat)
    (sols : matrix Bool) : matrix Bool :=
  (List.range' (u + 1) (size - (u + 1))).foldl
    (fun s v => (s.set u v (get_solution u v)).set v u (get_solution u v)) sols

/-- The function `utils::get_solutions(size, get_solution)`; `raw` is the content of the
freshly allocated buffer. -/
def get_solutions (size : Nat) (raw : Nat → Bool) (get_solution : Nat → Nat → Bool) :
    matrix Bool :=
  (List.range size).foldl
    (fun sols u => get_solutions_row size get_solution u (sols.set u u false))
    { buffer := raw, len := size }

/-- The function `utils::min_sub_tour(vertices, get_solution)`. -/
def min_sub_tour (count : Nat) (raw : Nat → Bool) (get_solution : Nat → Nat → Bool) : tour :=
  tour.min_sub_tour count (get_solutions count raw get_solution)

end utils

namespace subtour_elim

/-- The relation of a constraint (`GRB_LESS_EQUAL`, `GRB_EQUAL`, `GRB_GREATER_EQUAL`). -/
inductive sense where
  | less_equal
  | equal
  | greater_equal
  deriving DecidableEq

/-- The arguments of one `addLazy(expr, sense, rhs)` call.  `expr` lists the index pairs
`(a, b)` of the variables `vars[i][a][b]` that were added to the expression, each with
coefficient one. -/
structure lazy_cut where
  expr : List (Nat × Nat)
  rel : sense
  rhs : Nat
  deriving DecidableEq

/-- The nested loops that build `expr`: `for u < size, for v in u+1 .. size`. -/
def cut_expr (t : tour) : List (Nat × Nat) :=
  (List.range t.length).flatMap (fun u =>
    (List.range' (u + 1) (t.length - (u + 1))).map (fun v => (t.getD u 0, t.getD v 0)))

/-- The expression `tour.size()-1`, evaluated on `size_t`. -/
def cut_rhs (t : tour) : Nat := (t.length + (2 ^ 64 - 1)) % 2 ^ 64

/-- The method `lazy_constraint_subtour_elimination(i)`.  `get_solution u v` is the test
`getSolution(vars[i][u][v]) > 0.5` of variant `i`; the result is the `addLazy` call made,
if any. -/
def lazy_constraint_subtour_elimination (count : Nat) (raw : Nat → Bool)
    (get_solution : Nat → Nat → Bool) : Option lazy_cut :=
  let t := utils.min_sub_tour count raw get_solution
  if t.length ≥ count then none
  else some { expr := cut_expr t, rel := sense.less_equal, rhs := cut_rhs t }

end subtour_elim

/-! ## Properties of adjacency matrices used in the statements -/

namespace utils

namespace matrix

/-- The matrix is symmetric on its `size × size` entries. -/
def symmetric (m : matrix Bool) : Prop :=
  ∀ u, u < m.size → ∀ v, v < m.size → m.get u v = m.get v u

instance (m : matrix Bool) : Decidable m.symmetric := by
  unfold symmetric; infer_instance

/-- The diagonal of the matrix is false. -/
def false_diagonal (m : matrix Bool) : Prop :=
  ∀ u, u < m.size → m.get u u = false

instance (m : matrix Bool) : Decidable m.false_diagonal := by
  unfold false_diagonal; infer_instance

/-- The number of true entries in row `u`. -/
def row_degree (m : matrix Bool) (u : Nat) : Nat :=
  ((List.range m.size).filter (fun v => m.get u v)).length

/-- Every row has exactly two true entries. -/
def degree_two (m : matrix Bool) : Prop :=
  ∀ u, u < m.size → m.row_degree u = 2

instance (m : matrix Bool) : Decidable m.degree_two := by
  unfold degree_two; infer_instance

/-- Every row has exactly two true entries or none. -/
def degree_two_or_isolated (m : matrix Bool) : Prop :=
  ∀ u, u < m.size → m.row_degree u = 2 ∨ m.row_degree u = 0

instance (m : matrix Bool) : Decidable m.degree_two_or_isolated := by
  unfold degree_two_or_isolated; infer_instance

/-- All `size × size` entries are false. -/
def all_false (m : matrix Bool) : Prop :=
  ∀ u, u < m.size → ∀ v, v < m.size → m.get u v = false

instance (m : matrix Bool) : Decidable m.all_false := by
  unfold all_false; infer_instance

end matrix

end utils

/-- The instance of the example scenario: five vertices, the triangle `0, 1, 2` and the
pair `3, 4`. -/
def example_five : utils.matrix Bool :=
  utils.matrix.ofRows
    [[false, true, true, false, false],
     [true, false, true, false, false],
     [true, true, false, false, false],
     [false, false, false, false, true],
     [false, false, false, true, false]]

/-- A triangle `0, 1, 2` and the isolated vertex `3`. -/
def example_isolated : utils.matrix Bool :=
  utils.matrix.ofRows
    [[false, true, true, false],
     [true, false, true, false],
     [true, true, false, false],
     [false, false, false, false]]

/-- The empty matrix (no vertex). -/
def example_empty : utils.matrix Bool := utils.matrix.ofRows []

/-! ## Specification vocabulary for the decomposition -/

namespace tour

namespace iter_tours

/-- The markers cover exactly the vertices: `seen.size() == count()`. -/
def wf (it : iter_tours) : Prop := it.seen.length = it.count

/-- What one run of the loop of `next_tour(node)` does: it appends the walk `w` and leaves
the iterator `it1`. -/
structure walk_spec (len : Nat) (it : iter_tours) (node : Nat) (w : List Nat)
    (it1 : iter_tours) : Prop where
  count_eq : it1.count = it.count
  solution_eq : it1.solution = it.solution
  wf : it1.wf
  seen_iff : ∀ v, it1.is_seen v = true ↔ (it.is_seen v = true ∨ v ∈ w)
  nodup : w.Nodup
  fresh : ∀ v, v ∈ w → v < it.count ∧ it.is_seen v = false
  length_le : w.length ≤ len
  head : 0 < len → w.head? = some node
  chain : List.Chain' (fun a b => it.solution.get a b = true) w
  stop : w.length < len → ∀ x, w.getLast? = some x →
    ∀ v, v < it.count → it.solution.get x v = true → it1.is_seen v = true

end iter_tours

/-- The vertices not yet marked. -/
def unseen (it : iter_tours) : Finset Nat :=
  (Finset.range it.count).filter (fun v => it.is_seen v = false)

/-- The run of `next_tour()` from `it` yields exactly the tours `ts` and then `nullopt`. -/
inductive decomposes : iter_tours → List tour → Prop where
  | done (it : iter_tours) : it.next_tour = none → decomposes it []
  | step (it : iter_tours) (t : tour) (it1 : iter_tours) (ts : List tour) :
      it.next_tour = some (t, it1) → decomposes it1 ts → decomposes it (t :: ts)

/-- The fold performed by the loop of `min_sub_tour` over the remaining tours. -/
def keep_min (min_tour : tour) (ts : List tour) : tour :=
  ts.foldl (fun m t => if t.length < m.length then t else m) min_tour

/-- The tour `t` is the result of one `next_tour()` call made on some well-formed iterator
over the same vertices and matrix as `it`. -/
def produced (it : iter_tours) (t : tour) : Prop :=
  ∃ it0 node it1, iter_tours.wf it0 ∧ it0.count = it.count ∧ it0.solution = it.solution ∧
    it0.new_node = some node ∧ iter_tours.walk_spec it.count it0 node t it1

end tour

namespace utils

/-- The entry that `get_solutions` stores at `(u, v)`: the oracle at the unordered pair,
false on the diagonal. -/
def snapshot_entry (get_solution : Nat → Nat → Bool) (u v : Nat) : Bool :=
  if u < v then get_solution u v else if v < u then get_solution v u else false

end utils

/-! ## Hamiltonian cycles -/

/-- In the cyclic sequence `c`, `v` comes right after `u` (the first entry comes right
after the last one). -/
def cyc_succ (cyc : List Nat) (u v : Nat) : Prop :=
  ∃ i, i < cyc.length ∧ cyc[i]? = some u ∧ cyc[(i + 1) % cyc.length]? = some v

instance (c : List Nat) (u v : Nat) : Decidable (cyc_succ c u v) := by
  unfold cyc_succ; infer_instance

/-- The pair `u`, `v` is a pair of consecutive entries of the cyclic sequence `c`. -/
def cyc_adjacent (c : List Nat) (u v : Nat) : Prop := cyc_succ c u v ∨ cyc_succ c v u

instance (c : List Nat) (u v : Nat) : Decidable (cyc_adjacent c u v) := by
  unfold cyc_adjacent; infer_instance

/-- The sequence `c` visits each of the vertices `0 .. n-1` exactly once. -/
def visits_all (n : Nat) (c : List Nat) : Prop :=
  c.Nodup ∧ c.length = n ∧ ∀ v, v ∈ c → v < n

instance (n : Nat) (c : List Nat) : Decidable (visits_all n c) := by
  unfold visits_all; infer_instance

/-- The true entries of `m` are exactly the consecutive pairs of the cyclic sequence `c`. -/
def encodes_cycle (m : utils.matrix Bool) (c : List Nat) : Prop :=
  ∀ u, u < m.size → ∀ v, v < m.size → (m.get u v = true ↔ cyc_adjacent c u v)

instance (m : utils.matrix Bool) (c : List Nat) : Decidable (encodes_cycle m c) := by
  unfold encodes_cycle; infer_instance

/-- The matrix encodes a single Hamiltonian cycle through all its vertices. -/
def hamiltonian (m : utils.matrix Bool) : Prop :=
  ∃ c, visits_all m.size c ∧ encodes_cycle m c

namespace tour

namespace iter_tours

/-- The iterator after `seen[v] = true` for every `v` of `l`. -/
def mark_all (it : iter_tours) (l : List Nat) : iter_tours := l.foldl mark it

end iter_tours

end tour

namespace subtour_elim

/-- The pairs of a sequence, each entry with every later one. -/
def pairs : List Nat → List (Nat × Nat)
  | [] => []
  | x :: l => l.map (fun y => (x, y)) ++ pairs l

/-- The value of the left-hand side of the cut of `t` at the 0/1 point `h`: the number of
terms `vars[i][a][b]` of the expression whose edge is selected in `h`. -/
def cut_lhs (h : utils.matrix Bool) (t : tour) : Nat :=
  (cut_expr t).countP (fun p => h.get p.1 p.2)

end subtour_elim

/-! ## The exit code of `main` -/

/-- The exceptions that `main` distinguishes. -/
inductive exn where
  | invalid_solution (subtour : Option tour)
  | std_exception
  | grb_exception
  | unknown
  deriving DecidableEq

/-- The value of `EXIT_SUCCESS`. -/
def EXIT_SUCCESS : Nat := 0

/-- The value of `EXIT_FAILURE`. -/
def EXIT_FAILURE : Nat := 1

namespace graph

/-- The check at the end of `graph::solve()`: `solution_count() <= 0` throws
`invalid_solution::zero_solutions`. -/
def solve (solution_count : Int) : Except exn Unit :=
  if solution_count ≤ 0 then Except.error (exn.invalid_solution none) else Except.ok ()

/-- The method `graph::edge(i, u, v)`; `x u v` is the test `vars[i][u][v].X > 0.5`. -/
def edge (x : Nat → Nat → Bool) (u v : Nat) : Bool :=
  if u ≠ v then x u v else false

/-- The method `graph::tour(i)`: a minimum tour shorter or longer than `order()` throws
`invalid_solution::incomplete_tour`. -/
def tour (order : Nat) (raw : Nat → Bool) (x : Nat → Nat → Bool) : Except exn tour :=
  let min := utils.min_sub_tour order raw (edge x)
  if min.length ≠ order then Except.error (exn.invalid_solution (some min)) else Except.ok min

end graph

namespace program

/-- The `utils::invalid_solution` paths of `program::run()`: `g.solve()`, then
`g.solution(0)` and `g.solution(1)`, each of which calls `g.tour(i)`.  `x i` is the final
assignment of variant `i`; the other exceptions (`std::exception`, `GRBException`) come
from outside the modelled code and are outcomes of their own in `modelo.main`. -/
def run (solution_count : Int) (order : Nat) (raw : Nat → Bool)
    (x : Nat → Nat → Nat → Bool) : Except exn Unit :=
  match graph.solve solution_count with
  | Except.error e => Except.error e
  | Except.ok _ =>
    match graph.tour order raw (x 0) with
    | Except.error e => Except.error e
    | Except.ok _ =>
      match graph.tour order raw (x 1) with
      | Except.error e => Except.error e
      | Except.ok _ => Except.ok ()

end program

/-- The `try` / `catch` of `main` (of `src/modelo/main.cpp`), applied to the outcome of `program.run()`.  A handler
with a `return` statement gives its value; after a handler without one, control reaches
the `return EXIT_SUCCESS` that follows the `try` block. -/
def modelo.main (outcome : Except exn Unit) : Nat :=
  match outcome with
  | Except.ok _ => EXIT_SUCCESS
  | Except.error (exn.invalid_solution _) => EXIT_SUCCESS
  | Except.error exn.std_exception => EXIT_FAILURE
  | Except.error exn.grb_exception => EXIT_FAILURE
  | Except.error exn.unknown => EXIT_FAILURE

namespace tour

namespace iter_tours

/-- Two iterators with the same markers and vertex count whose matrices have the same
entries. -/
def agree (it it2 : iter_tours) : Prop :=
  it.seen = it2.seen ∧ it.count = it2.count ∧
    ∀ u, u < it.count → ∀ v, v < it.count → it.solution.get u v = it2.solution.get u v

end iter_tours

end tour

/-- The square `0 - 1 - 2 - 3 - 0`. -/
def example_square : utils.matrix Bool :=
  utils.matrix.ofRows
    [[false, true, false, true],
     [true, false, true, false],
     [false, true, false, true],
     [true, false, true, false]]

/-- The entry that comes right after `x` in the cyclic sequence `cyc`. -/
def cyc_next (cyc : List Nat) (x : Nat) : Nat :=
  cyc.getD ((cyc.indexOf x + 1) % cyc.length) 0

namespace utils

/-- The inner loop of `get_solutions` together with the log of the calls
`get_solution(u, v)` it makes, in order. -/
def get_solutions_row_traced (size : Nat) (get_solution : Nat → Nat → Bool) (u : Nat)
    (st : matrix Bool × List (Nat × Nat)) : matrix Bool × List (Nat × Nat) :=
  (List.range' (u + 1) (size - (u + 1))).foldl
    (fun s v =>
      ((s.1.set u v (get_solution u v)).set v u (get_solution u v), s.2 ++ [(u, v)])) st

/-- The function `utils::get_solutions` together with the log of the calls of the oracle
`get_solution` it makes, in order. -/
def get_solutions_traced (size : Nat) (raw : Nat → Bool) (get_solution : Nat → Nat → Bool) :
    matrix Bool × List (Nat × Nat) :=
  (List.range size).foldl
    (fun st u => get_solutions_row_traced size get_solution u (st.1.set u u false, st.2))
    ({ buffer := raw, len := size }, [])

end utils

namespace subtour_elim

/-- The `addLazy` call, if any, of `lazy_constraint_subtour_elimination(i)`, tagged with
the variant `i`. -/
def issued (i : Nat) (cut : Option lazy_cut) : List (Nat × lazy_cut) :=
  match cut with
  | some c => [(i, c)]
  | none => []

/-- The method `callback()`.  `mipsol` is the value of the solver's constant
`GRB_CB_MIPSOL`, `where_code` the member `where`, `raw i` the content of the buffer
allocated for variant `i` and `x i u v` the test `getSolution(vars[i][u][v]) > 0.5`.  The
result lists the `addLazy` calls made, in order, each with its variant. -/
def callback (mipsol where_code count : Nat) (raw : Nat → Nat → Bool)
    (x : Nat → Nat → Nat → Bool) : List (Nat × lazy_cut) :=
  if where_code = mipsol then
    issued 0 (lazy_constraint_subtour_elimination count (raw 0) (x 0)) ++
      issued 1 (lazy_constraint_subtour_elimination count (raw 1) (x 1))
  else []

end subtour_elim

/-- The sequence `t` is a closed cycle of the matrix: consecutive entries, and the last
entry with the first, are adjacent. -/
def closed_cycle (m : utils.matrix Bool) (t : List Nat) : Prop :=
  List.Chain' (fun a b => m.get a b = true) t ∧ m.get (t.getD (t.length - 1) 0) (t.getD 0 0) = true

instance (m : utils.matrix Bool) (t : List Nat) : Decidable (closed_cycle m t) := by
  unfold closed_cycle; infer_instance

/-- Every neighbour of a vertex of `t` is in `t`. -/
def neighbours_inside (m : utils.matrix Bool) (t : List Nat) : Prop :=
  ∀ u, u ∈ t → ∀ v, v < m.size → m.get u v = true → v ∈ t

namespace tour

/-- The seen vertices are closed under adjacency. -/
def closed_seen (it : iter_tours) : Prop :=
  ∀ u v, u < it.count → v < it.count → it.is_seen u = true →
    it.solution.get u v = true → it.is_seen v = true

end tour

/-- Two triangles, `0, 1, 2` and `3, 4, 5`. -/
def example_triangles : utils.matrix Bool :=
  utils.matrix.ofRows
    [[false, true, true, false, false, false],
     [true, false, true, false, false, false],
     [true, true, false, false, false, false],
     [false, false, false, false, true, true],
     [false, false, false, true, false, true],
     [false, false, false, true, true, false]]

/-! ## The `seen` markers -/

namespace tour

namespace iter_tours

theorem wf_init (count : Nat) (solution : utils.matrix Bool) : (init count solution).wf := by
  simp [wf, init]

theorem is_seen_init (count : Nat) (solution : utils.matrix Bool) (v : Nat) :
    (init count solution).is_seen v = false := by
  simp only [is_seen, init, List.getD_eq_getElem?_getD]
  by_cases h : v < count
  · simp [List.getElem?_replicate, h]
  · simp [List.getElem?_replicate, h]

theorem count_mark (it : iter_tours) (node : Nat) : (it.mark node).count = it.count := rfl

theorem solution_mark (it : iter_tours) (node : Nat) :
    (it.mark node).solution = it.solution := rfl

theorem wf_mark {it : iter_tours} (h : it.wf) (node : Nat) : (it.mark node).wf := by
  simpa [wf, mark] using h

theorem is_seen_mark (it : iter_tours) (node v : Nat) :
    (it.mark node).is_seen v = true ↔ (v = node ∧ node < it.seen.length) ∨ it.is_seen v = true := by
  simp only [is_seen, mark, List.getD_eq_getElem?_getD, List.getElem?_set]
  by_cases h : node = v
  · subst h
    by_cases hl : node < it.seen.length
    · simp [hl]
    · have : it.seen[node]? = none := by simp; omega
      simp [hl, this]
  · have h2 : ¬ v = node := fun e => h e.symm
    simp [h, h2]

theorem is_seen_mark_self {it : iter_tours} (h : it.wf) {node : Nat} (hn : node < it.count) :
    (it.mark node).is_seen node = true := by
  rw [is_seen_mark]; left; exact ⟨rfl, by rw [h]; exact hn⟩

theorem new_node_some {it : iter_tours} {node : Nat} (h : it.new_node = some node) :
    node < it.count ∧ it.is_seen node = false ∧ ∀ j, j < node → it.is_seen j = true := by
  simp only [new_node, List.find?_range_eq_some, List.mem_range, Bool.not_eq_true',
    Bool.not_not] at h
  exact ⟨h.2.1, h.1, h.2.2⟩

theorem new_node_none {it : iter_tours} :
    it.new_node = none ↔ ∀ v, v < it.count → it.is_seen v = true := by
  simp [new_node, List.find?_range_eq_none]

theorem best_next_some {it : iter_tours} {u v : Nat} (h : it.best_next u = some v) :
    v < it.count ∧ it.solution.get u v = true ∧ it.is_seen v = false ∧
      ∀ j, j < v → it.solution.get u j = true → it.is_seen j = true := by
  simp only [best_next, List.find?_range_eq_some, List.mem_range] at h
  obtain ⟨h1, h2, h3⟩ := h
  simp only [Bool.and_eq_true, Bool.not_eq_true', Bool.not_and, Bool.not_not] at h1 h3
  refine ⟨h2, h1.1, h1.2, fun j hj hs => ?_⟩
  have := h3 j hj
  simp only [Bool.or_eq_true, Bool.not_eq_true'] at this
  rcases this with h | h
  · rw [hs] at h; cases h
  · exact h

theorem best_next_none {it : iter_tours} {u : Nat} :
    it.best_next u = none ↔
      ∀ v, v < it.count → it.solution.get u v = true → it.is_seen v = true := by
  simp only [best_next, List.find?_range_eq_none]
  constructor
  · intro h v hv hs
    have := h v hv
    simpa [hs] using this
  · intro h v hv
    by_cases hs : it.solution.get u v = true
    · simp [hs, h v hv hs]
    · simp [hs]

theorem best_next_eq_some {it : iter_tours} {u v : Nat} (hv : v < it.count)
    (hs : it.solution.get u v = true) (hn : it.is_seen v = false)
    (hmin : ∀ j, j < v → it.solution.get u j = true → it.is_seen j = true) :
    it.best_next u = some v := by
  simp only [best_next, List.find?_range_eq_some, List.mem_range]
  refine ⟨by simp [hs, hn], hv, fun j hj => ?_⟩
  by_cases hsj : it.solution.get u j = true
  · simp [hsj, hmin j hj hsj]
  · simp [hsj]

end iter_tours

end tour

/-! ## One walk of `next_tour` -/

namespace tour

namespace iter_tours

theorem next_tour_from_spec (len : Nat) : ∀ (it : iter_tours) (node : Nat) (vs : tour),
    it.wf → node < it.count → it.is_seen node = false →
    ∃ w it1, next_tour_from len it node vs = (vs ++ w, it1) ∧ walk_spec len it node w it1 := by
  induction len with
  | zero =>
    intro it node vs hwf _ _
    refine ⟨[], it, by simp [next_tour_from], ?_⟩
    exact
      { count_eq := rfl, solution_eq := rfl, wf := hwf, seen_iff := by simp, nodup := by simp,
        fresh := by simp, length_le := by simp, head := by simp, chain := by simp,
        stop := by simp }
  | succ len ih =>
    intro it node vs hwf hnode hunseen
    have hself : (it.mark node).is_seen node = true := is_seen_mark_self hwf hnode
    have hlen : node < it.seen.length := by rw [hwf]; exact hnode
    cases hb : (it.mark node).best_next node with
    | none =>
      refine ⟨[node], it.mark node, by simp [next_tour_from, hb], ?_⟩
      exact
        { count_eq := rfl, solution_eq := rfl, wf := wf_mark hwf node
          seen_iff := by
            intro v; rw [is_seen_mark]; simp only [List.mem_singleton]
            constructor
            · rintro (⟨h, _⟩ | h)
              · exact Or.inr h
              · exact Or.inl h
            · rintro (h | h)
              · exact Or.inr h
              · exact Or.inl ⟨h, hlen⟩
          nodup := by simp
          fresh := by
            intro v hv; simp only [List.mem_singleton] at hv; subst hv
            exact ⟨hnode, hunseen⟩
          length_le := by simp
          head := by simp
          chain := by simp
          stop := by
            intro _ x hx v hv hs
            simp only [List.getLast?_singleton, Option.some.injEq] at hx
            subst hx
            exact best_next_none.1 hb v hv hs }
    | some next =>
      obtain ⟨hnext, hadj, hnseen, _⟩ := best_next_some hb
      obtain ⟨w, it1, heq, hw⟩ := ih (it.mark node) next (vs ++ [node]) (wf_mark hwf node)
        hnext hnseen
      refine ⟨node :: w, it1, by simp [next_tour_from, hb, heq], ?_⟩
      have hnotin : node ∉ w := by
        intro hmem
        have := (hw.fresh node hmem).2
        rw [hself] at this; cases this
      exact
        { count_eq := hw.count_eq, solution_eq := hw.solution_eq, wf := hw.wf
          seen_iff := by
            intro v; rw [hw.seen_iff, is_seen_mark]; simp only [List.mem_cons]
            constructor
            · rintro ((⟨h, _⟩ | h) | h)
              · exact Or.inr (Or.inl h)
              · exact Or.inl h
              · exact Or.inr (Or.inr h)
            · rintro (h | h | h)
              · exact Or.inl (Or.inr h)
              · exact Or.inl (Or.inl ⟨h, hlen⟩)
              · exact Or.inr h
          nodup := List.nodup_cons.2 ⟨hnotin, hw.nodup⟩
          fresh := by
            intro v hv
            rcases List.mem_cons.1 hv with h | h
            · subst h; exact ⟨hnode, hunseen⟩
            · obtain ⟨h1, h2⟩ := hw.fresh v h
              refine ⟨h1, ?_⟩
              cases hs : it.is_seen v with
              | false => rfl
              | true =>
                have : (it.mark node).is_seen v = true := (is_seen_mark it node v).2 (Or.inr hs)
                rw [this] at h2; cases h2
          length_le := by simpa using hw.length_le
          head := by simp
          chain := by
            rw [List.chain'_cons']
            refine ⟨?_, hw.chain⟩
            intro y hy
            cases len with
            | zero =>
              have := hw.length_le
              have hnil : w = [] := List.eq_nil_of_length_eq_zero (by omega)
              subst hnil; simp at hy
            | succ k =>
              have := hw.head (by omega)
              rw [this] at hy
              simp only [Option.mem_def, Option.some.injEq] at hy
              subst hy; exact hadj
          stop := by
            intro hlt x hx v hv hs
            have hlt2 : w.length < len := by simpa using hlt
            have hne : w ≠ [] := by
              intro hnil
              have := hw.head (by omega)
              rw [hnil] at this; simp at this
            have hx2 : w.getLast? = some x := by
              rw [← hx]; cases w with
              | nil => exact absurd rfl hne
              | cons a l => simp [List.getLast?_cons_cons]
            exact hw.stop hlt2 x hx2 v hv hs }

end iter_tours

end tour

/-! ## The whole decomposition -/

namespace tour

theorem next_tour_eq_none {it : iter_tours} :
    it.next_tour = none ↔ ∀ v, v < it.count → it.is_seen v = true := by
  rw [← iter_tours.new_node_none]
  unfold iter_tours.next_tour
  cases it.new_node <;> simp

theorem next_tour_spec {it : iter_tours} (hwf : it.wf) {t : tour} {it1 : iter_tours}
    (h : it.next_tour = some (t, it1)) :
    ∃ node, it.new_node = some node ∧ iter_tours.walk_spec it.count it node t it1 := by
  unfold iter_tours.next_tour at h
  cases hn : it.new_node with
  | none => rw [hn] at h; cases h
  | some node =>
    rw [hn] at h
    obtain ⟨h1, h2, _⟩ := iter_tours.new_node_some hn
    obtain ⟨w, it2, heq, hw⟩ := iter_tours.next_tour_from_spec it.count it node [] hwf h1 h2
    simp only [Option.some.injEq] at h
    rw [heq] at h
    simp only [List.nil_append, Prod.mk.injEq] at h
    obtain ⟨rfl, rfl⟩ := h
    exact ⟨node, rfl, hw⟩

theorem walk_ne_nil {len : Nat} {it : iter_tours} {node : Nat} {w : List Nat}
    {it1 : iter_tours} (hw : iter_tours.walk_spec len it node w it1) (hlen : 0 < len) :
    w ≠ [] := by
  intro h
  have := hw.head hlen
  rw [h] at this; simp at this

theorem unseen_walk {len : Nat} {it : iter_tours} {node : Nat} {w : List Nat}
    {it1 : iter_tours} (hw : iter_tours.walk_spec len it node w it1) :
    unseen it1 = unseen it \ w.toFinset ∧ w.toFinset ⊆ unseen it := by
  constructor
  · ext v
    simp only [unseen, Finset.mem_filter, Finset.mem_range, Finset.mem_sdiff, List.mem_toFinset,
      hw.count_eq]
    have := hw.seen_iff v
    constructor
    · rintro ⟨h1, h2⟩
      refine ⟨⟨h1, ?_⟩, ?_⟩
      · cases hs : it.is_seen v with
        | false => rfl
        | true => rw [this.2 (Or.inl hs)] at h2; cases h2
      · intro hm; rw [this.2 (Or.inr hm)] at h2; cases h2
    · rintro ⟨⟨h1, h2⟩, h3⟩
      refine ⟨h1, ?_⟩
      cases hs : it1.is_seen v with
      | false => rfl
      | true =>
        rcases this.1 hs with h | h
        · rw [h] at h2; cases h2
        · exact absurd h h3
  · intro v hv
    simp only [List.mem_toFinset] at hv
    simp only [unseen, Finset.mem_filter, Finset.mem_range]
    exact hw.fresh v hv

theorem unseen_card_walk {len : Nat} {it : iter_tours} {node : Nat} {w : List Nat}
    {it1 : iter_tours} (hw : iter_tours.walk_spec len it node w it1) :
    (unseen it1).card + w.length = (unseen it).card := by
  obtain ⟨h1, h2⟩ := unseen_walk hw
  rw [h1, Finset.card_sdiff h2, List.toFinset_card_of_nodup hw.nodup]
  have := Finset.card_le_card h2
  rw [List.toFinset_card_of_nodup hw.nodup] at this
  omega

theorem new_node_pos {it : iter_tours} {node : Nat} (h : it.new_node = some node) :
    0 < it.count := by
  have := (iter_tours.new_node_some h).1
  omega

/-- The decomposition always comes to an end: some list of tours is produced. -/
theorem decomposes_exists : ∀ (k : Nat) (it : iter_tours), it.wf → (unseen it).card ≤ k →
    ∃ ts, decomposes it ts ∧ ts.length ≤ (unseen it).card := by
  intro k
  induction k with
  | zero =>
    intro it _ hk
    refine ⟨[], decomposes.done it ?_, by simp⟩
    rw [next_tour_eq_none]
    intro v hv
    have hempty : unseen it = ∅ := Finset.card_eq_zero.1 (by omega)
    cases hs : it.is_seen v with
    | true => rfl
    | false =>
      have : v ∈ unseen it := by simp [unseen, hv, hs]
      rw [hempty] at this; simp at this
  | succ k ih =>
    intro it hwf hk
    cases hn : it.next_tour with
    | none => exact ⟨[], decomposes.done it hn, by simp⟩
    | some p =>
      obtain ⟨t, it1⟩ := p
      obtain ⟨node, hnode, hw⟩ := next_tour_spec hwf hn
      have hcard := unseen_card_walk hw
      have hne := walk_ne_nil hw (new_node_pos hnode)
      have hpos : 0 < t.length := List.length_pos.2 hne
      obtain ⟨ts, hts, hlen⟩ := ih it1 hw.wf (by omega)
      exact ⟨t :: ts, decomposes.step it t it1 ts hn hts, by simp; omega⟩

theorem decomposes_unique {it : iter_tours} {ts ts2 : List tour} (h : decomposes it ts) :
    decomposes it ts2 → ts = ts2 := by
  induction h generalizing ts2 with
  | done it hn =>
    intro h2
    cases h2 with
    | done _ _ => rfl
    | step _ t it1 ts hs _ => rw [hn] at hs; cases hs
  | step it t it1 ts hs _ ih =>
    intro h2
    cases h2 with
    | done _ hn => rw [hn] at hs; cases hs
    | step _ t2 it2 ts2 hs2 hd2 =>
      rw [hs] at hs2
      simp only [Option.some.injEq, Prod.mk.injEq] at hs2
      obtain ⟨rfl, rfl⟩ := hs2
      rw [ih hd2]

theorem all_tours_fuel_of_decomposes {it : iter_tours} {ts : List tour}
    (h : decomposes it ts) : ∀ fuel, ts.length < fuel → all_tours_fuel fuel it = some ts := by
  induction h with
  | done it hn =>
    intro fuel hf
    cases fuel with
    | zero => simp at hf
    | succ f => simp [all_tours_fuel, hn]
  | step it t it1 ts hs _ ih =>
    intro fuel hf
    cases fuel with
    | zero => simp at hf
    | succ f =>
      simp only [List.length_cons, Nat.add_lt_add_iff_right] at hf
      simp [all_tours_fuel, hs, ih f hf]

theorem min_sub_tour_loop_of_decomposes {it : iter_tours} {ts : List tour}
    (h : decomposes it ts) : ∀ fuel (m : tour), ts.length < fuel →
      min_sub_tour_loop fuel it m = some (keep_min m ts) := by
  induction h with
  | done it hn =>
    intro fuel m hf
    cases fuel with
    | zero => simp at hf
    | succ f => simp [min_sub_tour_loop, hn, keep_min]
  | step it t it1 ts hs _ ih =>
    intro fuel m hf
    cases fuel with
    | zero => simp at hf
    | succ f =>
      simp only [List.length_cons, Nat.add_lt_add_iff_right] at hf
      simp [min_sub_tour_loop, hs, ih f _ hf, keep_min]

theorem unseen_init_card (count : Nat) (solution : utils.matrix Bool) :
    (unseen (iter_tours.init count solution)).card = count := by
  have : unseen (iter_tours.init count solution) = Finset.range count := by
    ext v
    have h1 := iter_tours.is_seen_init count solution v
    have h2 : (iter_tours.init count solution).count = count := rfl
    simp only [unseen, h1, h2, Finset.mem_filter, Finset.mem_range, and_true]
  rw [this, Finset.card_range]

/-- The decomposition of a matrix, as a relation: `all_tours` is its result. -/
theorem decomposes_all_tours (count : Nat) (solution : utils.matrix Bool) :
    decomposes (iter_tours.init count solution) (all_tours count solution) ∧
      (all_tours count solution).length ≤ count := by
  obtain ⟨ts, hts, hlen⟩ := decomposes_exists _ (iter_tours.init count solution)
    (iter_tours.wf_init count solution) (le_refl _)
  rw [unseen_init_card] at hlen
  have := all_tours_fuel_of_decomposes hts (count + 1) (by omega)
  have heq : all_tours count solution = ts := by simp [all_tours, this]
  rw [heq]
  exact ⟨hts, hlen⟩

/-- Any fuel above the vertex count lets the decomposition finish, with the same result. -/
theorem all_tours_fuel_eq (count : Nat) (solution : utils.matrix Bool) (fuel : Nat)
    (hf : count < fuel) :
    all_tours_fuel fuel (iter_tours.init count solution) = some (all_tours count solution) := by
  obtain ⟨h, hlen⟩ := decomposes_all_tours count solution
  exact all_tours_fuel_of_decomposes h fuel (by omega)

end tour

namespace tour

theorem decomposes_props {it : iter_tours} {ts : List tour} (h : decomposes it ts) :
    it.wf →
    (∀ t, t ∈ ts → t.Nodup ∧ t ≠ [] ∧ (∀ v, v ∈ t → v < it.count ∧ it.is_seen v = false) ∧
      List.Chain' (fun a b => it.solution.get a b = true) t ∧ produced it t) ∧
    ts.Pairwise List.Disjoint ∧
    (∀ v, v < it.count → it.is_seen v = false → ∃ t, t ∈ ts ∧ v ∈ t) ∧
    (ts.map List.length).sum = (unseen it).card := by
  induction h with
  | done it hn =>
    intro _
    refine ⟨by simp, by simp, ?_, ?_⟩
    · intro v hv hs
      rw [next_tour_eq_none.1 hn v hv] at hs; cases hs
    · have : unseen it = ∅ := by
        ext v
        simp only [unseen, Finset.mem_filter, Finset.mem_range, Finset.not_mem_empty, iff_false,
          not_and]
        intro hv; rw [next_tour_eq_none.1 hn v hv]; simp
      simp [this]
  | step it t it1 ts hs _ ih =>
    intro hwf
    obtain ⟨node, hnode, hw⟩ := next_tour_spec hwf hs
    obtain ⟨ih1, ih2, ih3, ih4⟩ := ih hw.wf
    have hunseen : ∀ v, it1.is_seen v = false → it.is_seen v = false ∧ v ∉ t := by
      intro v hv
      constructor
      · cases h : it.is_seen v with
        | false => rfl
        | true => rw [(hw.seen_iff v).2 (Or.inl h)] at hv; cases hv
      · intro hm; rw [(hw.seen_iff v).2 (Or.inr hm)] at hv; cases hv
    refine ⟨?_, ?_, ?_, ?_⟩
    · intro t2 ht2
      rcases List.mem_cons.1 ht2 with h | h
      · subst h
        exact ⟨hw.nodup, walk_ne_nil hw (new_node_pos hnode), hw.fresh, hw.chain,
          ⟨it, node, it1, hwf, rfl, rfl, hnode, hw⟩⟩
      · obtain ⟨h1, h2, h3, h4, it0, nd, it2, h5, h6, h7, h8, h9⟩ := ih1 t2 h
        refine ⟨h1, h2, ?_, ?_, ⟨it0, nd, it2, h5, ?_, ?_, h8, ?_⟩⟩
        · intro v hv
          obtain ⟨hlt, hs1⟩ := h3 v hv
          exact ⟨by rw [← hw.count_eq]; exact hlt, (hunseen v hs1).1⟩
        · rw [← hw.solution_eq]; exact h4
        · rw [h6, hw.count_eq]
        · rw [h7, hw.solution_eq]
        · rw [← hw.count_eq]; exact h9
    · rw [List.pairwise_cons]
      refine ⟨?_, ih2⟩
      intro t2 ht2 v hv1 hv2
      obtain ⟨_, _, h3, _⟩ := ih1 t2 ht2
      exact (hunseen v (h3 v hv2).2).2 hv1
    · intro v hv hsv
      by_cases hm : v ∈ t
      · exact ⟨t, by simp, hm⟩
      · have hs1 : it1.is_seen v = false := by
          cases h : it1.is_seen v with
          | false => rfl
          | true =>
            rcases (hw.seen_iff v).1 h with h2 | h2
            · rw [h2] at hsv; cases hsv
            · exact absurd h2 hm
        obtain ⟨t2, ht2, hv2⟩ := ih3 v (by rw [hw.count_eq]; exact hv) hs1
        exact ⟨t2, List.mem_cons_of_mem _ ht2, hv2⟩
    · simp only [List.map_cons, List.sum_cons, ih4]
      have := unseen_card_walk hw
      omega

theorem keep_min_mem (m : tour) (ts : List tour) : keep_min m ts ∈ m :: ts := by
  induction ts generalizing m with
  | nil => simp [keep_min]
  | cons t ts ih =>
    have := ih (if t.length < m.length then t else m)
    simp only [keep_min, List.foldl_cons, List.mem_cons] at this ⊢
    rcases this with h | h
    · rw [h]; split
      · right; left; rfl
      · left; rfl
    · right; right; exact h

theorem keep_min_length_le_self (m : tour) (ts : List tour) :
    (keep_min m ts).length ≤ m.length := by
  induction ts generalizing m with
  | nil => simp [keep_min]
  | cons t ts ih =>
    have := ih (if t.length < m.length then t else m)
    simp only [keep_min, List.foldl_cons] at this ⊢
    by_cases hc : t.length < m.length
    · simp only [hc, if_true] at this ⊢; omega
    · simp only [hc, if_false] at this ⊢; omega

theorem keep_min_length_le (m : tour) (ts : List tour) :
    ∀ t, t ∈ m :: ts → (keep_min m ts).length ≤ t.length := by
  induction ts generalizing m with
  | nil => simp [keep_min]
  | cons t ts ih =>
    intro t2 ht2
    have h1 := ih (if t.length < m.length then t else m)
    have h0 := keep_min_length_le_self (if t.length < m.length then t else m) ts
    simp only [keep_min, List.foldl_cons] at h1 h0 ⊢
    simp only [List.mem_cons] at ht2 h1
    by_cases hc : t.length < m.length
    · simp only [hc, if_true] at h0 h1 ⊢
      rcases ht2 with h | h | h
      · subst h; omega
      · subst h; omega
      · exact h1 t2 (Or.inr h)
    · simp only [hc, if_false] at h0 h1 ⊢
      rcases ht2 with h | h | h
      · subst h; omega
      · subst h; omega
      · exact h1 t2 (Or.inr h)

/-- The result of `min_sub_tour` in terms of the list of decomposed tours, and the fact
that the loop of `min_sub_tour` finishes within any fuel of at least the vertex count. -/
theorem min_sub_tour_fuel_eq (count : Nat) (solution : utils.matrix Bool) (fuel : Nat)
    (hf : count ≤ fuel) :
    min_sub_tour_fuel fuel count solution = some (min_sub_tour count solution) ∧
    min_sub_tour count solution =
      (match all_tours count solution with
       | [] => []
       | first :: rest => keep_min first rest) := by
  obtain ⟨h, hlen⟩ := decomposes_all_tours count solution
  have key : ∀ fuel, count ≤ fuel → min_sub_tour_fuel fuel count solution =
      some (match all_tours count solution with
       | [] => []
       | first :: rest => keep_min first rest) := by
    intro fuel hf
    generalize all_tours count solution = ts0 at h hlen
    cases h with
    | done _ hn => simp [min_sub_tour_fuel, hn]
    | step _ t it1 ts hs hd =>
      simp only [List.length_cons] at hlen
      simp only [min_sub_tour_fuel, hs]
      exact min_sub_tour_loop_of_decomposes hd fuel t (by omega)
  have h2 : min_sub_tour count solution = (match all_tours count solution with
       | [] => []
       | first :: rest => keep_min first rest) := by
    simp [min_sub_tour, key count (le_refl _)]
  rw [h2]
  exact ⟨key fuel hf, rfl⟩

theorem next_tour_init_none {count : Nat} {solution : utils.matrix Bool} :
    (iter_tours.init count solution).next_tour = none ↔ count = 0 := by
  rw [next_tour_eq_none]
  constructor
  · intro h
    by_contra hne
    have := h 0 (by show 0 < count; omega)
    rw [iter_tours.is_seen_init] at this; cases this
  · intro h v hv
    have : v < count := hv
    omega

theorem all_tours_eq_nil {count : Nat} {solution : utils.matrix Bool} :
    all_tours count solution = [] ↔ count = 0 := by
  obtain ⟨h, _⟩ := decomposes_all_tours count solution
  generalize all_tours count solution = ts0 at h
  constructor
  · intro he
    rw [he] at h
    cases h with
    | done _ hn => exact next_tour_init_none.1 hn
  · intro hc
    cases h with
    | done _ hn => rfl
    | step _ t it1 ts hs hd => rw [next_tour_init_none.2 hc] at hs; cases hs

end tour

/-! ## Minimality and the partition into tours -/

namespace tour

theorem all_tours_props (count : Nat) (solution : utils.matrix Bool) :
    (∀ t, t ∈ all_tours count solution → t.Nodup ∧ t ≠ [] ∧ (∀ v, v ∈ t → v < count) ∧
      List.Chain' (fun a b => solution.get a b = true) t ∧ t.length ≤ count) ∧
    (all_tours count solution).Pairwise List.Disjoint ∧
    (∀ v, v < count → ∃ t, t ∈ all_tours count solution ∧ v ∈ t) ∧
    ((all_tours count solution).map List.length).sum = count := by
  obtain ⟨h, _⟩ := decomposes_all_tours count solution
  obtain ⟨h1, h2, h3, h4⟩ := decomposes_props h (iter_tours.wf_init count solution)
  refine ⟨?_, h2, ?_, ?_⟩
  · intro t ht
    obtain ⟨a, b, c, d, _, _, _, _, _, _, _, hw⟩ := h1 t ht
    exact ⟨a, b, fun v hv => (c v hv).1, d, hw.length_le⟩
  · intro v hv
    exact h3 v hv (iter_tours.is_seen_init count solution v)
  · rw [h4, unseen_init_card]

theorem chain_mem_cases {R : Nat → Nat → Prop} {v : Nat} : ∀ {t : List Nat},
    List.Chain' R t → v ∈ t → t = [v] ∨ ∃ a, a ∈ t ∧ (R a v ∨ R v a) := by
  intro t
  induction t with
  | nil => intro _ h; simp at h
  | cons x rest ih =>
    intro hc hv
    cases rest with
    | nil =>
      simp only [List.mem_singleton] at hv
      subst hv; left; rfl
    | cons y r =>
      rw [List.chain'_cons] at hc
      right
      rcases List.mem_cons.1 hv with h | h
      · subst h; exact ⟨y, by simp, Or.inr hc.1⟩
      · rcases ih hc.2 h with h2 | ⟨a, ha, h2⟩
        · simp only [List.cons.injEq] at h2
          obtain ⟨h3, _⟩ := h2
          subst h3
          exact ⟨x, by simp, Or.inl hc.1⟩
        · exact ⟨a, List.mem_cons_of_mem _ ha, h2⟩

theorem row_degree_eq_zero {m : utils.matrix Bool} {u : Nat} :
    m.row_degree u = 0 ↔ ∀ v, v < m.size → m.get u v = false := by
  simp [utils.matrix.row_degree, List.filter_eq_nil_iff]

end tour

/-! ## The snapshot built by `get_solutions` -/

namespace utils

theorem matrix.size_set {Item : Type} (m : matrix Item) (a b : Nat) (x : Item) :
    (m.set a b x).size = m.size := rfl

theorem matrix.get_set {Item : Type} (m : matrix Item) (a b u v : Nat) (x : Item)
    (hb : b < m.size) (hv : v < m.size) :
    (m.set a b x).get u v = if a = u ∧ b = v then x else m.get u v := by
  simp only [matrix.get, matrix.set, matrix.size, Function.update_apply]
  have hiff : (u * m.len + v = a * m.len + b) ↔ (a = u ∧ b = v) := by
    simp only [matrix.size] at hb hv
    constructor
    · intro h
      have h1 : (u * m.len + v) / m.len = (a * m.len + b) / m.len := by rw [h]
      have h2 : (u * m.len + v) % m.len = (a * m.len + b) % m.len := by rw [h]
      have hpos : 0 < m.len := by omega
      rw [Nat.mul_comm u, Nat.mul_comm a, Nat.mul_add_div hpos, Nat.mul_add_div hpos,
        Nat.div_eq_of_lt hv, Nat.div_eq_of_lt hb] at h1
      rw [Nat.mul_comm u, Nat.mul_comm a, Nat.mul_add_mod, Nat.mul_add_mod,
        Nat.mod_eq_of_lt hv, Nat.mod_eq_of_lt hb] at h2
      omega
    · rintro ⟨rfl, rfl⟩; rfl
  by_cases h : a = u ∧ b = v
  · rw [if_pos h, if_pos (hiff.2 h)]
  · rw [if_neg h, if_neg (fun e => h (hiff.1 e))]

theorem get_solutions_row_spec (size : Nat) (g : Nat → Nat → Bool) (u : Nat) :
    ∀ (vs : List Nat) (sols : matrix Bool), sols.size = size → u < size →
      (∀ v, v ∈ vs → u < v ∧ v < size) →
      ((vs.foldl (fun s v => (s.set u v (g u v)).set v u (g u v)) sols).size = size) ∧
      ∀ a b, a < size → b < size →
        (vs.foldl (fun s v => (s.set u v (g u v)).set v u (g u v)) sols).get a b =
          if a = u ∧ b ∈ vs then g u b else if b = u ∧ a ∈ vs then g u a else sols.get a b := by
  intro vs
  induction vs with
  | nil => intro sols hs _ _; simp [hs]
  | cons v vs ih =>
    intro sols hs hu hvs
    have hv := hvs v (by simp)
    obtain ⟨ih1, ih2⟩ := ih ((sols.set u v (g u v)).set v u (g u v)) (by simpa using hs) hu
      (fun w hw => hvs w (List.mem_cons_of_mem _ hw))
    refine ⟨by simpa using ih1, ?_⟩
    intro a b ha hb
    simp only [List.foldl_cons]
    rw [ih2 a b ha hb]
    rw [matrix.get_set _ _ _ _ _ _ (by rw [matrix.size_set, hs]; exact hu)
      (by rw [matrix.size_set, hs]; exact hb)]
    rw [matrix.get_set _ _ _ _ _ _ (by rw [hs]; exact hv.2) (by rw [hs]; exact hb)]
    simp only [List.mem_cons]
    by_cases h1 : a = u
    · by_cases h2 : b = v
      · subst h1; subst h2
        have : ¬ (b = a) := by omega
        simp [this]
      · by_cases h3 : b ∈ vs
        · simp [h1, h2, h3]
        · have h4 : ¬ (v = b) := fun e => h2 e.symm
          by_cases h5 : b = u
          · have h6 : ¬ (u = v) := by omega
            have h7 : ¬ (v = u) := by omega
            have h8 : u ∉ vs := fun hm => by have := hvs u (List.mem_cons_of_mem _ hm); omega
            subst h1; subst h5
            simp [h6, h7, h8]
          · have h6 : ¬ (u = b) := fun e => h5 e.symm
            simp [h1, h2, h3, h4, h5, h6]
    · have h1b : ¬ (u = a) := fun e => h1 e.symm
      by_cases h5 : b = u
      · by_cases h2 : a = v
        · subst h5; subst h2
          simp [h1]
        · have h2b : ¬ (v = a) := fun e => h2 e.symm
          by_cases h3 : a ∈ vs
          · simp [h1, h5, h3]
          · simp [h1, h1b, h5, h3, h2, h2b]
      · have h5b : ¬ (u = b) := fun e => h5 e.symm
        simp [h1, h1b, h5, h5b]

theorem get_solutions_upto (size : Nat) (raw : Nat → Bool) (g : Nat → Nat → Bool) :
    ∀ k, k ≤ size →
      (((List.range k).foldl
        (fun sols u => get_solutions_row size g u (sols.set u u false))
        { buffer := raw, len := size }).size = size) ∧
      ∀ a b, a < size → b < size →
        ((List.range k).foldl
          (fun sols u => get_solutions_row size g u (sols.set u u false))
          { buffer := raw, len := size }).get a b =
          if a < k ∨ b < k then snapshot_entry g a b
          else (matrix.mk raw size).get a b := by
  intro k
  induction k with
  | zero => intro _; simp [matrix.size]
  | succ k ih =>
    intro hk
    obtain ⟨ih1, ih2⟩ := ih (by omega)
    rw [List.range_succ, List.foldl_append]
    simp only [List.foldl_cons, List.foldl_nil]
    generalize ((List.range k).foldl
      (fun sols u => get_solutions_row size g u (sols.set u u false))
      { buffer := raw, len := size }) = m0 at ih1 ih2 ⊢
    have hrow := get_solutions_row_spec size g k (List.range' (k + 1) (size - (k + 1)))
      (m0.set k k false) (by simpa using ih1) (by omega)
      (by intro v hv; rw [List.mem_range'_1] at hv; omega)
    refine ⟨hrow.1, ?_⟩
    intro a b ha hb
    unfold get_solutions_row
    rw [hrow.2 a b ha hb, matrix.get_set _ _ _ _ _ _ (by rw [ih1]; omega) (by rw [ih1]; exact hb),
      ih2 a b ha hb]
    simp only [List.mem_range'_1, snapshot_entry]
    by_cases h1 : a = k
    · by_cases h2 : b = k
      · subst h1; subst h2; simp
      · subst h1
        by_cases h3 : a < b
        · have : a + 1 ≤ b ∧ b < a + 1 + (size - (a + 1)) := by omega
          simp [this, h3]
        · have h4 : b < a := by omega
          have : ¬ (a + 1 ≤ b ∧ b < a + 1 + (size - (a + 1))) := by omega
          have h5 : ¬ (a = b) := by omega
          simp [this, h2, h3, h4, h5]
    · by_cases h2 : b = k
      · subst h2
        have h1b : ¬ (b = a) := fun e => h1 e.symm
        by_cases h3 : b < a
        · have : b + 1 ≤ a ∧ a < b + 1 + (size - (b + 1)) := by omega
          have h4 : ¬ (a < b) := by omega
          simp [this, h1, h3, h4]
        · have h4 : a < b := by omega
          have : ¬ (b + 1 ≤ a ∧ a < b + 1 + (size - (b + 1))) := by omega
          simp [this, h1, h1b, h4]
      · have h1b : ¬ (k = a) := fun e => h1 e.symm
        have h2b : ¬ (k = b) := fun e => h2 e.symm
        have hiff : (a < k + 1 ∨ b < k + 1) ↔ (a < k ∨ b < k) := by omega
        simp [h1, h2, h1b, h2b, hiff]

/-- Every entry of the matrix built by `get_solutions` is the value of the oracle at the
corresponding unordered pair, and false on the diagonal. -/
theorem get_solutions_get (size : Nat) (raw : Nat → Bool) (g : Nat → Nat → Bool)
    (a b : Nat) (ha : a < size) (hb : b < size) :
    (get_solutions size raw g).get a b = snapshot_entry g a b := by
  have := (get_solutions_upto size raw g size (le_refl _)).2 a b ha hb
  unfold get_solutions
  rw [this, if_pos (Or.inl ha)]

theorem get_solutions_size (size : Nat) (raw : Nat → Bool) (g : Nat → Nat → Bool) :
    (get_solutions size raw g).size = size :=
  (get_solutions_upto size raw g size (le_refl _)).1

end utils

/-! ## The decomposition only reads the `count × count` entries -/

namespace tour

theorem find_congr {p q : Nat → Bool} : ∀ (l : List Nat), (∀ x, x ∈ l → p x = q x) →
    l.find? p = l.find? q := by
  intro l
  induction l with
  | nil => intro _; rfl
  | cons a l ih =>
    intro h
    have ha := h a (by simp)
    have hl := ih (fun x hx => h x (List.mem_cons_of_mem _ hx))
    simp only [List.find?_cons, ha, hl]

namespace iter_tours

theorem agree_mark {it it2 : iter_tours} (h : agree it it2) (node : Nat) :
    agree (it.mark node) (it2.mark node) := by
  obtain ⟨h1, h2, h3⟩ := h
  exact ⟨by simp [mark, h1], h2, h3⟩

theorem agree_is_seen {it it2 : iter_tours} (h : agree it it2) (v : Nat) :
    it.is_seen v = it2.is_seen v := by
  simp [is_seen, h.1]

theorem agree_best_next {it it2 : iter_tours} (h : agree it it2) {u : Nat}
    (hu : u < it.count) : it.best_next u = it2.best_next u := by
  unfold best_next
  rw [← h.2.1]
  apply find_congr
  intro v hv
  rw [List.mem_range] at hv
  rw [h.2.2 u hu v hv, agree_is_seen h]

theorem agree_new_node {it it2 : iter_tours} (h : agree it it2) :
    it.new_node = it2.new_node := by
  unfold new_node
  rw [← h.2.1]
  apply find_congr
  intro v _
  rw [agree_is_seen h]

theorem agree_next_tour_from (len : Nat) : ∀ (it it2 : iter_tours) (node : Nat) (vs : tour),
    agree it it2 → node < it.count →
    (next_tour_from len it node vs).1 = (next_tour_from len it2 node vs).1 ∧
      agree (next_tour_from len it node vs).2 (next_tour_from len it2 node vs).2 := by
  induction len with
  | zero => intro it it2 node vs h _; exact ⟨rfl, h⟩
  | succ len ih =>
    intro it it2 node vs h hn
    have hm := agree_mark h node
    have hb := agree_best_next hm (u := node) hn
    simp only [next_tour_from]
    rw [← hb]
    cases hbn : (it.mark node).best_next node with
    | none => exact ⟨rfl, hm⟩
    | some next =>
      have := (best_next_some hbn).1
      exact ih (it.mark node) (it2.mark node) next (vs ++ [node]) hm this

end iter_tours

theorem agree_all_tours_fuel (fuel : Nat) : ∀ (it it2 : iter_tours), iter_tours.agree it it2 →
    all_tours_fuel fuel it = all_tours_fuel fuel it2 := by
  induction fuel with
  | zero => intro _ _ _; rfl
  | succ fuel ih =>
    intro it it2 h
    simp only [all_tours_fuel, iter_tours.next_tour]
    rw [← iter_tours.agree_new_node h]
    cases hn : it.new_node with
    | none => rfl
    | some node =>
      have hlt := (iter_tours.new_node_some hn).1
      obtain ⟨h1, h2⟩ := iter_tours.agree_next_tour_from it.count it it2 node [] h hlt
      rw [← h.2.1]
      simp only []
      rw [← h1, ih _ _ h2]

theorem agree_min_sub_tour_loop (fuel : Nat) : ∀ (it it2 : iter_tours) (m : tour),
    iter_tours.agree it it2 → min_sub_tour_loop fuel it m = min_sub_tour_loop fuel it2 m := by
  induction fuel with
  | zero => intro _ _ _ _; rfl
  | succ fuel ih =>
    intro it it2 m h
    simp only [min_sub_tour_loop, iter_tours.next_tour]
    rw [← iter_tours.agree_new_node h]
    cases hn : it.new_node with
    | none => rfl
    | some node =>
      have hlt := (iter_tours.new_node_some hn).1
      obtain ⟨h1, h2⟩ := iter_tours.agree_next_tour_from it.count it it2 node [] h hlt
      rw [← h.2.1]
      simp only []
      rw [← h1, ih _ _ _ h2]

theorem agree_init {count : Nat} {s s2 : utils.matrix Bool}
    (h : ∀ u, u < count → ∀ v, v < count → s.get u v = s2.get u v) :
    iter_tours.agree (iter_tours.init count s) (iter_tours.init count s2) :=
  ⟨rfl, rfl, h⟩

/-- The result of `min_sub_tour` and the decomposition depend on the matrix only through
its `count × count` entries. -/
theorem min_sub_tour_congr {count : Nat} {s s2 : utils.matrix Bool}
    (h : ∀ u, u < count → ∀ v, v < count → s.get u v = s2.get u v) :
    min_sub_tour count s = min_sub_tour count s2 ∧ all_tours count s = all_tours count s2 := by
  have ha := agree_init h
  constructor
  · simp only [min_sub_tour, min_sub_tour_fuel, iter_tours.next_tour]
    rw [← iter_tours.agree_new_node ha]
    cases hn : (iter_tours.init count s).new_node with
    | none => rfl
    | some node =>
      have hlt := (iter_tours.new_node_some hn).1
      obtain ⟨h1, h2⟩ := iter_tours.agree_next_tour_from count _ _ node [] ha hlt
      have e1 : (iter_tours.init count s).count = count := rfl
      have e2 : (iter_tours.init count s2).count = count := rfl
      simp only [e1, e2]
      rw [← h1, agree_min_sub_tour_loop _ _ _ _ h2]
  · simp only [all_tours]
    rw [agree_all_tours_fuel _ _ _ ha]

end tour

/-! ## The expression of the cut -/

namespace subtour_elim

theorem map_getD_range' (pre l : List Nat) :
    (List.range' pre.length l.length).map (fun v => (pre ++ l).getD v 0) = l := by
  apply List.ext_getElem
  · simp
  · intro i h1 h2
    simp only [List.getElem_map, List.getElem_range', Nat.mul_one, List.getD_eq_getElem?_getD]
    rw [List.getElem?_append_right (by omega)]
    simp [h2]

theorem cut_expr_aux : ∀ (l pre : List Nat),
    (List.range' pre.length l.length).flatMap (fun u =>
      (List.range' (u + 1) ((pre ++ l).length - (u + 1))).map
        (fun v => ((pre ++ l).getD u 0, (pre ++ l).getD v 0))) = pairs l := by
  intro l
  induction l with
  | nil => intro pre; simp [pairs]
  | cons x l ih =>
    intro pre
    have hih := ih (pre ++ [x])
    have e1 : pre ++ [x] ++ l = pre ++ x :: l := by simp
    have e2 : (pre ++ [x]).length = pre.length + 1 := by simp
    rw [e1, e2] at hih
    rw [List.length_cons, List.range'_succ, List.flatMap_cons, pairs, hih]
    congr 1
    have hlen : (pre ++ x :: l).length - (pre.length + 1) = l.length := by
      rw [List.length_append, List.length_cons]; omega
    rw [hlen]
    have hx : (pre ++ x :: l).getD pre.length 0 = x := by
      rw [List.getD_eq_getElem?_getD, List.getElem?_append_right (le_refl _)]; simp
    rw [hx]
    have := map_getD_range' (pre ++ [x]) l
    rw [e1, e2] at this
    conv_rhs => rw [← this]
    rw [List.map_map]
    rfl

theorem cut_expr_eq_pairs (t : tour) : cut_expr t = pairs t := by
  have := cut_expr_aux t []
  simpa [cut_expr, List.range_eq_range'] using this

theorem length_pairs (l : List Nat) : 2 * (pairs l).length = l.length * (l.length - 1) := by
  induction l with
  | nil => simp [pairs]
  | cons x l ih =>
    simp only [pairs, List.length_append, List.length_map, List.length_cons,
      Nat.add_sub_cancel]
    rw [Nat.mul_add, ih]
    cases l with
    | nil => simp
    | cons y r =>
      simp only [List.length_cons, Nat.add_sub_cancel]
      ring

theorem mem_pairs {l : List Nat} {p : Nat × Nat} (hl : l.Nodup) (hp : p ∈ pairs l) :
    p.1 ∈ l ∧ p.2 ∈ l ∧ p.1 ≠ p.2 := by
  induction l with
  | nil => simp [pairs] at hp
  | cons x l ih =>
    rw [List.nodup_cons] at hl
    simp only [pairs, List.mem_append, List.mem_map] at hp
    rcases hp with ⟨y, hy, rfl⟩ | hp
    · refine ⟨by simp, List.mem_cons_of_mem _ hy, ?_⟩
      intro h; simp only at h; subst h; exact hl.1 hy
    · obtain ⟨h1, h2, h3⟩ := ih hl.2 hp
      exact ⟨List.mem_cons_of_mem _ h1, List.mem_cons_of_mem _ h2, h3⟩

theorem count_map_pair (x a b : Nat) (l : List Nat) :
    (l.map (fun y => (x, y))).count (a, b) = if a = x then l.count b else 0 := by
  induction l with
  | nil => simp
  | cons y l ih =>
    simp only [List.map_cons, List.count_cons, ih, beq_iff_eq, Prod.mk.injEq]
    by_cases h : a = x
    · subst h
      by_cases h2 : y = b
      · simp [h2]
      · have : ¬ (b = y) := fun e => h2 e.symm
        simp [h2, this]
    · have : ¬ (x = a) := fun e => h e.symm
      simp [h, this]

theorem count_pairs_of_not_mem {l : List Nat} (hl : l.Nodup) {a b : Nat}
    (h : a ∉ l ∨ b ∉ l) : (pairs l).count (a, b) = 0 := by
  apply List.count_eq_zero_of_not_mem
  intro hm
  obtain ⟨h1, h2, _⟩ := mem_pairs hl hm
  rcases h with h | h
  · exact h h1
  · exact h h2

theorem count_pairs {l : List Nat} (hl : l.Nodup) {a b : Nat} (hab : a ≠ b) (ha : a ∈ l)
    (hb : b ∈ l) : (pairs l).count (a, b) + (pairs l).count (b, a) = 1 := by
  induction l with
  | nil => simp at ha
  | cons x l ih =>
    have hl2 := List.nodup_cons.1 hl
    simp only [pairs, List.count_append, count_map_pair]
    by_cases hax : a = x
    · subst hax
      have hbl : b ∈ l := by
        rcases List.mem_cons.1 hb with h | h
        · exact absurd h.symm hab
        · exact h
      have hba : ¬ (b = a) := fun e => hab e.symm
      rw [if_pos rfl, if_neg hba, List.count_eq_one_of_mem hl2.2 hbl,
        count_pairs_of_not_mem hl2.2 (Or.inl hl2.1), count_pairs_of_not_mem hl2.2 (Or.inr hl2.1)]
    · have hal : a ∈ l := by
        rcases List.mem_cons.1 ha with h | h
        · exact absurd h hax
        · exact h
      by_cases hbx : b = x
      · subst hbx
        rw [if_neg hax, if_pos rfl, List.count_eq_one_of_mem hl2.2 hal,
          count_pairs_of_not_mem hl2.2 (Or.inr hl2.1),
          count_pairs_of_not_mem hl2.2 (Or.inl hl2.1)]
      · have hbl : b ∈ l := by
          rcases List.mem_cons.1 hb with h | h
          · exact absurd h hbx
          · exact h
        rw [if_neg hax, if_neg hbx]
        have := ih hl2.2 hal hbl
        omega

end subtour_elim

/-! ## The first tour and degenerate matrices -/

namespace tour

theorem keep_min_eq_self (m : tour) (ts : List tour)
    (h : ∀ t, t ∈ ts → m.length ≤ t.length) : keep_min m ts = m := by
  induction ts with
  | nil => rfl
  | cons t ts ih =>
    have h1 := h t (by simp)
    have h2 : ¬ (t.length < m.length) := by omega
    simp only [keep_min, List.foldl_cons, h2, if_false]
    exact ih (fun t2 ht2 => h t2 (List.mem_cons_of_mem _ ht2))

theorem new_node_init {count : Nat} (solution : utils.matrix Bool) (h : 0 < count) :
    (iter_tours.init count solution).new_node = some 0 := by
  cases hn : (iter_tours.init count solution).new_node with
  | none =>
    have := iter_tours.new_node_none.1 hn 0 h
    rw [iter_tours.is_seen_init] at this; cases this
  | some node =>
    obtain ⟨_, _, h3⟩ := iter_tours.new_node_some hn
    cases node with
    | zero => rfl
    | succ k =>
      have := h3 0 (by omega)
      rw [iter_tours.is_seen_init] at this; cases this

/-- With at least one vertex the decomposition starts with a tour that begins at vertex 0. -/
theorem all_tours_first {count : Nat} (solution : utils.matrix Bool) (h : 0 < count) :
    ∃ first rest, all_tours count solution = first :: rest ∧ first.head? = some 0 ∧
      (iter_tours.init count solution).next_tour =
        some (iter_tours.next_tour_from count (iter_tours.init count solution) 0 []) ∧
      first = (iter_tours.next_tour_from count (iter_tours.init count solution) 0 []).1 := by
  obtain ⟨hd, _⟩ := decomposes_all_tours count solution
  have hnn := new_node_init solution h
  have hnt : (iter_tours.init count solution).next_tour =
      some (iter_tours.next_tour_from count (iter_tours.init count solution) 0 []) := by
    simp only [iter_tours.next_tour, hnn]; rfl
  generalize all_tours count solution = ts at hd
  cases hd with
  | done _ hn => rw [hn] at hnt; cases hnt
  | step _ t it1 ts hs hdec =>
    obtain ⟨node, hnode, hw⟩ := next_tour_spec (iter_tours.wf_init count solution) hs
    rw [hnn] at hnode
    simp only [Option.some.injEq] at hnode
    subst hnode
    refine ⟨t, ts, rfl, hw.head h, hnt, ?_⟩
    rw [hs] at hnt
    simp only [Option.some.injEq] at hnt
    rw [← hnt]

theorem all_false_tours {solution : utils.matrix Bool} (hfalse : solution.all_false) :
    ∀ t, t ∈ all_tours solution.size solution → t.length = 1 := by
  intro t ht
  obtain ⟨h1, _, _, _⟩ := all_tours_props solution.size solution
  obtain ⟨_, hne, hlt, hchain, _⟩ := h1 t ht
  cases t with
  | nil => exact absurd rfl hne
  | cons a r =>
    cases r with
    | nil => rfl
    | cons b r2 =>
      rw [List.chain'_cons] at hchain
      have := hfalse a (hlt a (by simp)) b (hlt b (by simp))
      rw [hchain.1] at this; cases this

theorem all_false_min_sub_tour {solution : utils.matrix Bool} (hfalse : solution.all_false) :
    min_sub_tour solution.size solution = if solution.size = 0 then [] else [0] := by
  have h := (min_sub_tour_fuel_eq solution.size solution solution.size (le_refl _)).2
  by_cases h0 : solution.size = 0
  · rw [if_pos h0, h, all_tours_eq_nil.2 h0]
  · rw [if_neg h0, h]
    obtain ⟨first, rest, heq, hhead, _, _⟩ := all_tours_first solution (by omega : 0 < solution.size)
    have hlen := all_false_tours hfalse
    rw [heq] at hlen ⊢
    have hf := hlen first (by simp)
    simp only []
    rw [keep_min_eq_self first rest (fun t ht => by
      rw [hf, hlen t (List.mem_cons_of_mem _ ht)])]
    cases first with
    | nil => simp at hf
    | cons a r =>
      simp only [List.head?_cons, Option.some.injEq] at hhead
      subst hhead
      have : r = [] := List.eq_nil_of_length_eq_zero (by simpa using hf)
      rw [this]

end tour

/-- The minimum tour of a matrix has no repeated vertex, only vertices below `n` and,
with at least one vertex, is not empty. -/
theorem tours_shape_aux (n : Nat) (solution : utils.matrix Bool) :
    (tour.min_sub_tour n solution).Nodup ∧
      (0 < n → 1 ≤ (tour.min_sub_tour n solution).length) ∧
      (∀ v, v ∈ tour.min_sub_tour n solution → v < n) := by
  obtain ⟨h1, _, _, _⟩ := tour.all_tours_props n solution
  have h := (tour.min_sub_tour_fuel_eq n solution n (le_refl _)).2
  rw [h]
  cases hts : tour.all_tours n solution with
  | nil =>
    refine ⟨by simp, fun h0 => ?_, by simp⟩
    have := tour.all_tours_eq_nil.1 hts
    omega
  | cons first rest =>
    have hm : tour.keep_min first rest ∈ tour.all_tours n solution := by
      rw [hts]; exact tour.keep_min_mem first rest
    obtain ⟨a, b, c, _⟩ := h1 _ hm
    exact ⟨a, fun _ => List.length_pos.2 b, c⟩

/-! ## Walking around a Hamiltonian cycle -/

theorem getElem?_getD {l : List Nat} {k : Nat} (h : k < l.length) :
    l[k]? = some (l.getD k 0) := by
  rw [List.getD_eq_getElem?_getD, List.getElem?_eq_getElem h]; rfl

theorem nodup_index_eq {l : List Nat} (hl : l.Nodup) {i j : Nat} {x : Nat}
    (hi : l[i]? = some x) (hj : l[j]? = some x) : i = j := by
  have hlt : i < l.length := by
    rw [List.getElem?_eq_some_iff] at hi; exact hi.1
  exact List.getElem?_inj hlt hl (by rw [hi, hj])

theorem mem_take_of_getElem? {l : List Nat} {i m x : Nat} (hi : l[i]? = some x)
    (him : i < m) : x ∈ l.take m := by
  apply List.getElem?_mem (n := i)
  rw [List.getElem?_take_of_lt him, hi]

theorem not_mem_take_of_nodup {l : List Nat} (hl : l.Nodup) {k x : Nat}
    (hk : l[k]? = some x) : x ∉ l.take k := by
  intro hm
  rw [List.mem_iff_getElem?] at hm
  obtain ⟨i, hi⟩ := hm
  have hik : i < k := by
    by_contra hge
    rw [List.getElem?_take_eq_none (by omega)] at hi
    cases hi
  rw [List.getElem?_take_of_lt hik] at hi
  have := nodup_index_eq hl hi hk
  omega

theorem take_succ_getD {l : List Nat} {k : Nat} (h : k < l.length) :
    l.take (k + 1) = l.take k ++ [l.getD k 0] := by
  rw [List.take_succ, getElem?_getD h]; rfl

theorem cyc_succ_index {d : List Nat} {i : Nat} (hi : i < d.length) :
    cyc_succ d (d.getD i 0) (d.getD ((i + 1) % d.length) 0) :=
  ⟨i, hi, getElem?_getD hi, getElem?_getD (Nat.mod_lt _ (by omega))⟩

theorem cyc_succ_next {d : List Nat} (hd : d.Nodup) {k u v : Nat} (hk : d[k]? = some u)
    (h : cyc_succ d u v) : d[(k + 1) % d.length]? = some v := by
  obtain ⟨i, _, h1, h2⟩ := h
  have := nodup_index_eq hd h1 hk
  subst this
  exact h2

theorem cyc_succ_prev {d : List Nat} (hd : d.Nodup) {k u v : Nat} (hk : d[k]? = some u)
    (h : cyc_succ d v u) : ∃ i, i < d.length ∧ (i + 1) % d.length = k ∧ d[i]? = some v := by
  obtain ⟨i, hi, h1, h2⟩ := h
  exact ⟨i, hi, nodup_index_eq hd h2 hk, h1⟩

namespace tour

namespace iter_tours

theorem mark_all_append (it : iter_tours) (l : List Nat) (x : Nat) :
    mark_all it (l ++ [x]) = (mark_all it l).mark x := by
  simp [mark_all, List.foldl_append]

theorem mark_all_spec : ∀ (l : List Nat) (it : iter_tours), it.wf →
    (∀ x, x ∈ l → x < it.count) →
    (mark_all it l).wf ∧ (mark_all it l).count = it.count ∧
      (mark_all it l).solution = it.solution ∧
      ∀ v, (mark_all it l).is_seen v = true ↔ (v ∈ l ∨ it.is_seen v = true) := by
  intro l
  induction l with
  | nil => intro it hwf _; exact ⟨hwf, rfl, rfl, by simp [mark_all]⟩
  | cons x l ih =>
    intro it hwf hl
    have hx := hl x (by simp)
    obtain ⟨h1, h2, h3, h4⟩ := ih (it.mark x) (wf_mark hwf x)
      (fun y hy => hl y (List.mem_cons_of_mem _ hy))
    refine ⟨h1, h2, h3, ?_⟩
    intro v
    have : mark_all it (x :: l) = mark_all (it.mark x) l := rfl
    rw [this, h4, is_seen_mark]
    have hlen : x < it.seen.length := by rw [hwf]; exact hx
    simp only [List.mem_cons]
    constructor
    · rintro (h | ⟨h, _⟩ | h)
      · exact Or.inl (Or.inr h)
      · exact Or.inl (Or.inl h)
      · exact Or.inr h
    · rintro ((h | h) | h)
      · exact Or.inr (Or.inl ⟨h, hlen⟩)
      · exact Or.inl h
      · exact Or.inr (Or.inr h)

theorem is_seen_mark_all_init (count : Nat) (solution : utils.matrix Bool) (l : List Nat)
    (hl : ∀ x, x ∈ l → x < count) (v : Nat) :
    (mark_all (init count solution) l).is_seen v = true ↔ v ∈ l := by
  have := (mark_all_spec l (init count solution) (wf_init count solution) hl).2.2.2 v
  rw [this, is_seen_init]
  simp

end iter_tours

/-- The walk of `next_tour` around a cycle `d` that starts in the direction of its smaller
neighbour: from position `k`, with the entries before `k` seen, the loop returns `d`. -/
theorem walk_cycle (solution : utils.matrix Bool) (d : List Nat)
    (hvis : visits_all solution.size d) (henc : encodes_cycle solution d)
    (h3 : 3 ≤ solution.size)
    (hord : d.getD 1 0 < d.getD (solution.size - 1) 0) :
    ∀ j k, k + j + 1 = solution.size →
      iter_tours.next_tour_from (j + 1)
        (iter_tours.mark_all (iter_tours.init solution.size solution) (d.take k))
        (d.getD k 0) (d.take k) =
      (d, iter_tours.mark_all (iter_tours.init solution.size solution) d) := by
  obtain ⟨hnd, hlen, hlt⟩ := hvis
  intro j
  induction j with
  | zero =>
    intro k hk
    have hkl : k < d.length := by omega
    have e1 : d.take k ++ [d.getD k 0] = d := by
      rw [← take_succ_getD hkl]
      exact List.take_of_length_le (by omega)
    have e2 : (iter_tours.mark_all (iter_tours.init solution.size solution) (d.take k)).mark
        (d.getD k 0) = iter_tours.mark_all (iter_tours.init solution.size solution) d := by
      rw [← iter_tours.mark_all_append, e1]
    simp only [iter_tours.next_tour_from, e1, e2]
    cases (iter_tours.mark_all (iter_tours.init solution.size solution) d).best_next
      (d.getD k 0) <;> rfl
  | succ j ih =>
    intro k hk
    have hkl : k < d.length := by omega
    have hkl1 : k + 1 < d.length := by omega
    have e1 : d.take k ++ [d.getD k 0] = d.take (k + 1) := (take_succ_getD hkl).symm
    have e2 : (iter_tours.mark_all (iter_tours.init solution.size solution) (d.take k)).mark
        (d.getD k 0) =
        iter_tours.mark_all (iter_tours.init solution.size solution) (d.take (k + 1)) := by
      rw [← iter_tours.mark_all_append, e1]
    have hk0 := getElem?_getD hkl
    have hk1 := getElem?_getD hkl1
    have hmem : ∀ x, x ∈ d.take (k + 1) → x < solution.size :=
      fun x hx => hlt x (List.mem_of_mem_take hx)
    have hseen := iter_tours.is_seen_mark_all_init solution.size solution (d.take (k + 1)) hmem
    have hspec := iter_tours.mark_all_spec (d.take (k + 1))
      (iter_tours.init solution.size solution) (iter_tours.wf_init _ _) hmem
    have hdk : d.getD k 0 < solution.size := hlt _ (List.getElem?_mem hk0)
    have hdk1 : d.getD (k + 1) 0 < solution.size := hlt _ (List.getElem?_mem hk1)
    have hmod : (k + 1) % d.length = k + 1 := Nat.mod_eq_of_lt hkl1
    have hbest : (iter_tours.mark_all (iter_tours.init solution.size solution)
        (d.take (k + 1))).best_next (d.getD k 0) = some (d.getD (k + 1) 0) := by
      apply iter_tours.best_next_eq_some
      · rw [hspec.2.1]; exact hdk1
      · rw [hspec.2.2.1]
        show solution.get (d.getD k 0) (d.getD (k + 1) 0) = true
        rw [henc _ hdk _ hdk1]
        left
        have := cyc_succ_index hkl
        rw [hmod] at this
        exact this
      · cases hs : (iter_tours.mark_all (iter_tours.init solution.size solution)
            (d.take (k + 1))).is_seen (d.getD (k + 1) 0) with
        | false => rfl
        | true => exact absurd ((hseen _).1 hs) (not_mem_take_of_nodup hnd hk1)
      · intro x hx hadj
        rw [hspec.2.2.1] at hadj
        have hadj2 : solution.get (d.getD k 0) x = true := hadj
        rw [henc _ hdk _ (by omega)] at hadj2
        rw [hseen]
        rcases hadj2 with h | h
        · have := cyc_succ_next hnd hk0 h
          rw [hmod, hk1] at this
          simp only [Option.some.injEq] at this
          omega
        · obtain ⟨i, hi, him, hix⟩ := cyc_succ_prev hnd hk0 h
          by_cases hin : i + 1 < d.length
          · rw [Nat.mod_eq_of_lt hin] at him
            exact mem_take_of_getElem? hix (by omega)
          · have hi1 : i + 1 = d.length := by omega
            rw [hi1, Nat.mod_self] at him
            subst him
            have hi2 : i = solution.size - 1 := by omega
            rw [hi2, getElem?_getD (by omega)] at hix
            simp only [Option.some.injEq] at hix
            simp only [Nat.zero_add] at hx
            omega
    simp only [iter_tours.next_tour_from, e2, hbest, e1]
    exact ih (k + 1) (by omega)

end tour

/-! ## Rotations and reversal of a cycle -/

theorem cyc_succ_of_rotate {l : List Nat} {p u v : Nat} (h : cyc_succ (l.rotate p) u v) :
    cyc_succ l u v := by
  obtain ⟨i, hi, h1, h2⟩ := h
  rw [List.length_rotate] at hi h2
  have hpos : 0 < l.length := by omega
  rw [List.getElem?_rotate hi] at h1
  rw [List.getElem?_rotate (Nat.mod_lt _ hpos)] at h2
  refine ⟨(i + p) % l.length, Nat.mod_lt _ hpos, h1, ?_⟩
  have : ((i + p) % l.length + 1) % l.length = ((i + 1) % l.length + p) % l.length := by
    rw [Nat.mod_add_mod, Nat.mod_add_mod]
    congr 1
    omega
  rw [this]
  exact h2

theorem cyc_succ_isRotated {l l2 : List Nat} (h : List.IsRotated l l2) (u v : Nat) :
    cyc_succ l u v ↔ cyc_succ l2 u v := by
  constructor
  · intro h1
    obtain ⟨p, hp⟩ := h.symm
    rw [← hp] at h1
    exact cyc_succ_of_rotate h1
  · intro h1
    obtain ⟨p, hp⟩ := h
    rw [← hp] at h1
    exact cyc_succ_of_rotate h1

theorem cyc_succ_of_reverse {l : List Nat} {u v : Nat} (h : cyc_succ l.reverse u v) :
    cyc_succ l v u := by
  obtain ⟨i, hi, h1, h2⟩ := h
  rw [List.length_reverse] at hi h2
  have hpos : 0 < l.length := by omega
  rw [List.getElem?_reverse hi] at h1
  rw [List.getElem?_reverse (Nat.mod_lt _ hpos)] at h2
  refine ⟨l.length - 1 - (i + 1) % l.length, by omega, h2, ?_⟩
  by_cases hin : i + 1 < l.length
  · rw [Nat.mod_eq_of_lt hin]
    have : (l.length - 1 - (i + 1) + 1) = l.length - 1 - i := by omega
    rw [this, Nat.mod_eq_of_lt (by omega)]
    exact h1
  · have hi1 : i + 1 = l.length := by omega
    rw [hi1, Nat.mod_self]
    have : l.length - 1 - 0 + 1 = l.length := by omega
    rw [this, Nat.mod_self]
    have : l.length - 1 - i = 0 := by omega
    rw [this] at h1
    exact h1

theorem cyc_adjacent_isRotated {l l2 : List Nat} (h : List.IsRotated l l2) (u v : Nat) :
    cyc_adjacent l u v ↔ cyc_adjacent l2 u v := by
  unfold cyc_adjacent
  rw [cyc_succ_isRotated h u v, cyc_succ_isRotated h v u]

theorem cyc_adjacent_reverse (l : List Nat) (u v : Nat) :
    cyc_adjacent l.reverse u v ↔ cyc_adjacent l u v := by
  unfold cyc_adjacent
  constructor
  · rintro (h | h)
    · exact Or.inr (cyc_succ_of_reverse h)
    · exact Or.inl (cyc_succ_of_reverse h)
  · rintro (h | h)
    · right; apply cyc_succ_of_reverse; rw [List.reverse_reverse]; exact h
    · left; apply cyc_succ_of_reverse; rw [List.reverse_reverse]; exact h

theorem visits_all_isRotated {n : Nat} {l l2 : List Nat} (h : List.IsRotated l l2)
    (hv : visits_all n l) : visits_all n l2 := by
  obtain ⟨h1, h2, h3⟩ := hv
  refine ⟨h.nodup_iff.1 h1, ?_, fun v hv2 => h3 v (h.mem_iff.2 hv2)⟩
  rw [← h.perm.length_eq, h2]

theorem visits_all_reverse {n : Nat} {l : List Nat} (hv : visits_all n l) :
    visits_all n l.reverse := by
  obtain ⟨h1, h2, h3⟩ := hv
  exact ⟨List.nodup_reverse.2 h1, by simpa using h2, fun v hv2 => h3 v (List.mem_reverse.1 hv2)⟩

theorem encodes_cycle_isRotated {m : utils.matrix Bool} {l l2 : List Nat}
    (h : List.IsRotated l l2) (he : encodes_cycle m l) : encodes_cycle m l2 := by
  intro u hu v hv
  rw [he u hu v hv, cyc_adjacent_isRotated h]

theorem encodes_cycle_reverse {m : utils.matrix Bool} {l : List Nat}
    (he : encodes_cycle m l) : encodes_cycle m l.reverse := by
  intro u hu v hv
  rw [he u hu v hv, cyc_adjacent_reverse]

theorem visits_all_mem {n : Nat} {l : List Nat} (hv : visits_all n l) :
    ∀ v, v < n → v ∈ l := by
  obtain ⟨h1, h2, h3⟩ := hv
  have hsub : l.toFinset ⊆ Finset.range n := by
    intro x hx
    rw [List.mem_toFinset] at hx
    exact Finset.mem_range.2 (h3 x hx)
  have hcard : (Finset.range n).card ≤ l.toFinset.card := by
    rw [List.toFinset_card_of_nodup h1, Finset.card_range, h2]
  have := Finset.eq_of_subset_of_card_le hsub hcard
  intro v hv2
  have hm : v ∈ Finset.range n := Finset.mem_range.2 hv2
  rw [← this, List.mem_toFinset] at hm
  exact hm

theorem getD_reverse_rotate (l : List Nat) (i : Nat) (hi : i < l.length) :
    (l.reverse.rotate (l.length - 1)).getD i 0 =
      l.getD (l.length - 1 - (i + (l.length - 1)) % l.length) 0 := by
  have hpos : 0 < l.length := by omega
  rw [List.getD_eq_getElem?_getD, List.getD_eq_getElem?_getD,
    List.getElem?_rotate (by rw [List.length_reverse]; exact hi), List.length_reverse,
    List.getElem?_reverse (Nat.mod_lt _ hpos)]

/-- Every Hamiltonian cycle on at least three vertices can be rotated, and reversed if
needed, so that it starts at vertex 0 and continues with the smaller neighbour of 0. -/
theorem cycle_orient {n : Nat} {c : List Nat} (h3 : 3 ≤ n) (hv : visits_all n c) :
    ∃ d, (List.IsRotated c d ∨ List.IsRotated c.reverse d) ∧ d.getD 0 0 = 0 ∧
      d.getD 1 0 < d.getD (n - 1) 0 := by
  have h0 := visits_all_mem hv 0 (by omega)
  rw [List.mem_iff_getElem?] at h0
  obtain ⟨p, hp⟩ := h0
  have hpl : p < c.length := by
    rw [List.getElem?_eq_some_iff] at hp; exact hp.1
  have hrot : List.IsRotated c (c.rotate p) := ⟨p, rfl⟩
  have hv1 := visits_all_isRotated hrot hv
  have hlen : (c.rotate p).length = n := hv1.2.1
  have hc0 : (c.rotate p).getD 0 0 = 0 := by
    rw [List.getD_eq_getElem?_getD, List.getElem?_rotate (by omega), Nat.zero_add,
      Nat.mod_eq_of_lt hpl, hp]
    rfl
  by_cases hord : (c.rotate p).getD 1 0 < (c.rotate p).getD (n - 1) 0
  · exact ⟨c.rotate p, Or.inl hrot, hc0, hord⟩
  · refine ⟨(c.rotate p).reverse.rotate ((c.rotate p).length - 1), Or.inr ?_, ?_, ?_⟩
    · exact (hrot.reverse).trans ⟨_, rfl⟩
    · rw [getD_reverse_rotate _ _ (by omega), hlen, Nat.zero_add,
        Nat.mod_eq_of_lt (by omega)]
      have : n - 1 - (n - 1) = 0 := by omega
      rw [this, hc0]
    · rw [getD_reverse_rotate _ _ (by omega), getD_reverse_rotate _ _ (by omega), hlen]
      have e1 : 1 + (n - 1) = n := by omega
      have e2 : n - 1 + (n - 1) = (n - 2) + n := by omega
      rw [e1, Nat.mod_self, e2, Nat.add_mod_right, Nat.mod_eq_of_lt (by omega)]
      have e3 : n - 1 - 0 = n - 1 := by omega
      have e4 : n - 1 - (n - 2) = 1 := by omega
      rw [e3, e4]
      have hne : (c.rotate p).getD 1 0 ≠ (c.rotate p).getD (n - 1) 0 := by
        intro heq
        have h1 := getElem?_getD (l := c.rotate p) (k := 1) (by omega)
        have h2 := getElem?_getD (l := c.rotate p) (k := n - 1) (by omega)
        rw [heq] at h1
        have := nodup_index_eq hv1.1 h1 h2
        omega
      omega

namespace tour

/-- On a matrix that encodes the cycle `d`, written from vertex 0 towards the smaller
neighbour of 0, the decomposition consists of the single tour `d`. -/
theorem all_tours_cycle (solution : utils.matrix Bool) (d : List Nat)
    (hvis : visits_all solution.size d) (henc : encodes_cycle solution d)
    (h3 : 3 ≤ solution.size) (h0 : d.getD 0 0 = 0)
    (hord : d.getD 1 0 < d.getD (solution.size - 1) 0) :
    all_tours solution.size solution = [d] ∧ min_sub_tour solution.size solution = d := by
  have hw := walk_cycle solution d hvis henc h3 hord (solution.size - 1) 0 (by omega)
  have e1 : solution.size - 1 + 1 = solution.size := by omega
  rw [e1, h0] at hw
  simp only [List.take_zero] at hw
  have e2 : iter_tours.mark_all (iter_tours.init solution.size solution) [] =
      iter_tours.init solution.size solution := rfl
  rw [e2] at hw
  obtain ⟨first, rest, heq, _, hnt, hfirst⟩ := all_tours_first solution
    (by omega : 0 < solution.size)
  rw [hw] at hnt hfirst
  simp only at hfirst
  subst hfirst
  obtain ⟨hd, _⟩ := decomposes_all_tours solution.size solution
  rw [heq] at hd
  have hrest : rest = [] := by
    cases hd with
    | step _ _ it1 _ hs hdec =>
      rw [hnt] at hs
      simp only [Option.some.injEq, Prod.mk.injEq, true_and] at hs
      subst hs
      have hnone : (iter_tours.mark_all (iter_tours.init solution.size solution)
          first).next_tour = none := by
        rw [next_tour_eq_none]
        intro v hv
        have hspec := iter_tours.mark_all_spec first
          (iter_tours.init solution.size solution) (iter_tours.wf_init _ _) hvis.2.2
        rw [hspec.2.1] at hv
        rw [iter_tours.is_seen_mark_all_init _ _ _ hvis.2.2]
        exact visits_all_mem hvis v hv
      cases hdec with
      | done _ _ => rfl
      | step _ _ _ _ hs2 _ => rw [hnone] at hs2; cases hs2
  subst hrest
  refine ⟨heq, ?_⟩
  rw [(min_sub_tour_fuel_eq solution.size solution solution.size (le_refl _)).2, heq]
  rfl

/-- On a matrix that encodes a Hamiltonian cycle `c` on at least three vertices, the
decomposition is a single tour, a rotation of `c` or of the reversal of `c`. -/
theorem min_sub_tour_of_cycle (solution : utils.matrix Bool) (c : List Nat)
    (h3 : 3 ≤ solution.size) (hvis : visits_all solution.size c)
    (henc : encodes_cycle solution c) :
    all_tours solution.size solution = [min_sub_tour solution.size solution] ∧
      (min_sub_tour solution.size solution).length = solution.size ∧
      (List.IsRotated c (min_sub_tour solution.size solution) ∨
        List.IsRotated c.reverse (min_sub_tour solution.size solution)) := by
  obtain ⟨d, hrot, h0, hord⟩ := cycle_orient h3 hvis
  have hd : visits_all solution.size d ∧ encodes_cycle solution d := by
    rcases hrot with h | h
    · exact ⟨visits_all_isRotated h hvis, encodes_cycle_isRotated h henc⟩
    · exact ⟨visits_all_isRotated h (visits_all_reverse hvis),
        encodes_cycle_isRotated h (encodes_cycle_reverse henc)⟩
  obtain ⟨h1, h2⟩ := all_tours_cycle solution d hd.1 hd.2 h3 h0 hord
  rw [h2]
  exact ⟨h1, hd.1.2.1, hrot⟩

end tour

/-! ## Degree two and closed chains -/

theorem chain_getD {R : Nat → Nat → Prop} : ∀ (l : List Nat), List.Chain' R l →
    ∀ i, i + 1 < l.length → R (l.getD i 0) (l.getD (i + 1) 0) := by
  intro l
  induction l with
  | nil => intro _ i hi; simp at hi
  | cons x r ih =>
    intro hc i hi
    cases r with
    | nil => simp at hi
    | cons y r2 =>
      rw [List.chain'_cons] at hc
      cases i with
      | zero => exact hc.1
      | succ k =>
        have := ih hc.2 k (by simpa using hi)
        simpa using this

theorem degree_three_absurd {m : utils.matrix Bool} {u a b c : Nat}
    (hdeg : m.row_degree u = 2) (ha : a < m.size) (hb : b < m.size) (hc : c < m.size)
    (hab : a ≠ b) (hac : a ≠ c) (hbc : b ≠ c) (h1 : m.get u a = true)
    (h2 : m.get u b = true) (h3 : m.get u c = true) : False := by
  have hnd : [a, b, c].Nodup := by simp [hab, hac, hbc]
  have hsub : [a, b, c] ⊆ (List.range m.size).filter (fun v => m.get u v) := by
    intro x hx
    simp only [List.mem_cons, List.mem_singleton, List.not_mem_nil, or_false] at hx
    rw [List.mem_filter, List.mem_range]
    rcases hx with rfl | rfl | rfl
    · exact ⟨ha, h1⟩
    · exact ⟨hb, h2⟩
    · exact ⟨hc, h3⟩
  have := (List.subperm_of_subset hnd hsub).length_le
  unfold utils.matrix.row_degree at hdeg
  rw [hdeg] at this
  simp at this

theorem degree_two_other {m : utils.matrix Bool} {u : Nat} (hdeg : m.row_degree u = 2)
    (a : Nat) : ∃ w, w < m.size ∧ w ≠ a ∧ m.get u w = true := by
  unfold utils.matrix.row_degree at hdeg
  obtain ⟨x, y, hxy⟩ := List.length_eq_two.1 hdeg
  have hnd : ((List.range m.size).filter (fun v => m.get u v)).Nodup :=
    (List.nodup_range m.size).filter _
  have hx : x ∈ (List.range m.size).filter (fun v => m.get u v) := by rw [hxy]; simp
  have hy : y ∈ (List.range m.size).filter (fun v => m.get u v) := by rw [hxy]; simp
  rw [hxy] at hnd
  have hne : x ≠ y := by
    intro h; subst h; simp at hnd
  rw [List.mem_filter, List.mem_range] at hx hy
  by_cases hxa : x = a
  · exact ⟨y, hy.1, fun h => hne (by rw [hxa, h]), hy.2⟩
  · exact ⟨x, hx.1, hxa, hx.2⟩

/-- In a symmetric matrix with a false diagonal and two true entries per row, a chain
through all `n ≥ 3` vertices closes into a cycle, and the matrix is the matrix of that
cycle. -/
theorem encodes_cycle_of_chain {m : utils.matrix Bool} {t : List Nat} (h3 : 3 ≤ m.size)
    (hsym : m.symmetric) (hdiag : m.false_diagonal) (hdeg : m.degree_two)
    (hvis : visits_all m.size t)
    (hchain : List.Chain' (fun a b => m.get a b = true) t) : encodes_cycle m t := by
  obtain ⟨hnd, hlen, hlt⟩ := hvis
  have hget : ∀ i, i < m.size → t[i]? = some (t.getD i 0) :=
    fun i hi => getElem?_getD (by omega)
  have hltD : ∀ i, i < m.size → t.getD i 0 < m.size :=
    fun i hi => hlt _ (List.getElem?_mem (hget i hi))
  have hinj : ∀ i j, i < m.size → j < m.size → t.getD i 0 = t.getD j 0 → i = j := by
    intro i j hi hj h
    have h1 := hget i hi
    rw [h] at h1
    exact nodup_index_eq hnd h1 (hget j hj)
  have hidx : ∀ v, v < m.size → ∃ i, i < m.size ∧ t.getD i 0 = v := by
    intro v hv
    have := visits_all_mem ⟨hnd, hlen, hlt⟩ v hv
    rw [List.mem_iff_getElem?] at this
    obtain ⟨i, hi⟩ := this
    have hil : i < t.length := by
      rw [List.getElem?_eq_some_iff] at hi; exact hi.1
    refine ⟨i, by omega, ?_⟩
    have := hget i (by omega)
    rw [hi] at this
    simp only [Option.some.injEq] at this
    exact this.symm
  have hstep : ∀ i, i + 1 < m.size → m.get (t.getD i 0) (t.getD (i + 1) 0) = true :=
    fun i hi => chain_getD t hchain i (by omega)
  have hstep2 : ∀ i, i + 1 < m.size → m.get (t.getD (i + 1) 0) (t.getD i 0) = true := by
    intro i hi
    rw [hsym _ (hltD _ hi) _ (hltD _ (by omega))]
    exact hstep i hi
  -- the closing edge
  have hclose : m.get (t.getD (m.size - 1) 0) (t.getD 0 0) = true := by
    obtain ⟨w, hw, hne, hadj⟩ := degree_two_other (hdeg _ (hltD (m.size - 1) (by omega)))
      (t.getD (m.size - 2) 0)
    obtain ⟨i, hi, hiw⟩ := hidx w hw
    subst hiw
    have hi1 : i ≠ m.size - 1 := by
      intro h
      rw [h, hdiag _ (hltD _ (by omega))] at hadj
      cases hadj
    have hi2 : i ≠ m.size - 2 := fun h => hne (by rw [h])
    by_cases hi0 : i = 0
    · rw [hi0] at hadj; exact hadj
    · exfalso
      have e1 : i - 1 + 1 = i := by omega
      have ha := hstep2 (i - 1) (by omega)
      rw [e1] at ha
      have hb := hstep i (by omega)
      have hc : m.get (t.getD i 0) (t.getD (m.size - 1) 0) = true := by
        rw [hsym _ (hltD _ hi) _ (hltD _ (by omega))]; exact hadj
      refine degree_three_absurd (hdeg _ (hltD i hi)) (hltD (i - 1) (by omega))
        (hltD (i + 1) (by omega)) (hltD (m.size - 1) (by omega)) ?_ ?_ ?_ ha hb hc
      · intro h; have := hinj _ _ (by omega) (by omega) h; omega
      · intro h; have := hinj _ _ (by omega) (by omega) h; omega
      · intro h; have := hinj _ _ (by omega) (by omega) h; omega
  have hnext : ∀ i, i < m.size →
      m.get (t.getD i 0) (t.getD ((i + 1) % m.size) 0) = true := by
    intro i hi
    by_cases hin : i + 1 < m.size
    · rw [Nat.mod_eq_of_lt hin]; exact hstep i hin
    · have : i + 1 = m.size := by omega
      rw [this, Nat.mod_self]
      have : i = m.size - 1 := by omega
      rw [this]; exact hclose
  have hprev : ∀ i, i < m.size →
      m.get (t.getD ((i + 1) % m.size) 0) (t.getD i 0) = true := by
    intro i hi
    rw [hsym _ (hltD _ (Nat.mod_lt _ (by omega))) _ (hltD _ hi)]
    exact hnext i hi
  intro u hu v hv
  constructor
  · intro hadj
    obtain ⟨i, hi, hiu⟩ := hidx u hu
    obtain ⟨j, hj, hjv⟩ := hidx v hv
    subst hiu; subst hjv
    -- the predecessor position of `i`
    obtain ⟨i', hi', hi'eq⟩ : ∃ i', i' < m.size ∧ (i' + 1) % m.size = i := by
      by_cases h0 : i = 0
      · refine ⟨m.size - 1, by omega, ?_⟩
        have : m.size - 1 + 1 = m.size := by omega
        rw [this, Nat.mod_self, h0]
      · refine ⟨i - 1, by omega, ?_⟩
        have : i - 1 + 1 = i := by omega
        rw [this, Nat.mod_eq_of_lt hi]
    have hpi := hprev i' hi'
    rw [hi'eq] at hpi
    have hni := hnext i hi
    have hdist : (i + 1) % m.size ≠ i' := by
      intro h
      by_cases hin : i + 1 < m.size
      · rw [Nat.mod_eq_of_lt hin] at h
        subst h
        by_cases hin2 : i + 1 + 1 < m.size
        · rw [Nat.mod_eq_of_lt hin2] at hi'eq; omega
        · have : i + 1 + 1 = m.size := by omega
          rw [this, Nat.mod_self] at hi'eq; omega
      · have : i + 1 = m.size := by omega
        rw [this, Nat.mod_self] at h
        subst h
        rw [Nat.zero_add, Nat.mod_eq_of_lt (by omega)] at hi'eq
        omega
    have hlen2 : t.length = m.size := hlen
    by_cases hj1 : j = (i + 1) % m.size
    · left
      refine ⟨i, by omega, hget i hi, ?_⟩
      rw [hlen2, ← hj1]; exact hget j hj
    · by_cases hj2 : j = i'
      · right
        refine ⟨i', by omega, ?_, ?_⟩
        · rw [← hj2]; exact hget j hj
        · rw [hlen2, hi'eq]; exact hget i hi
      · exfalso
        refine degree_three_absurd (hdeg _ (hltD i hi))
          (hltD ((i + 1) % m.size) (Nat.mod_lt _ (by omega))) (hltD i' hi') (hltD j hj)
          ?_ ?_ ?_ hni hpi hadj
        · intro h; exact hdist (hinj _ _ (Nat.mod_lt _ (by omega)) hi' h)
        · intro h; exact hj1 (hinj _ _ (Nat.mod_lt _ (by omega)) hj h).symm
        · intro h; exact hj2 (hinj _ _ hi' hj h).symm
  · have hlen2 : t.length = m.size := hlen
    rintro (⟨i, hi, h1, h2⟩ | ⟨i, hi, h1, h2⟩)
    · rw [hlen2] at hi h2
      rw [hget i hi] at h1
      rw [hget _ (Nat.mod_lt _ (by omega))] at h2
      simp only [Option.some.injEq] at h1 h2
      rw [← h1, ← h2]; exact hnext i hi
    · rw [hlen2] at hi h2
      rw [hget i hi] at h1
      rw [hget _ (Nat.mod_lt _ (by omega))] at h2
      simp only [Option.some.injEq] at h1 h2
      rw [← h1, ← h2]; exact hprev i hi

namespace tour

/-- For a symmetric matrix with a false diagonal and two true entries per row, on at least
three vertices: the minimum tour has all `n` vertices exactly when the matrix is the
matrix of a single Hamiltonian cycle. -/
theorem min_sub_tour_full_iff {m : utils.matrix Bool} (h3 : 3 ≤ m.size)
    (hsym : m.symmetric) (hdiag : m.false_diagonal) (hdeg : m.degree_two) :
    (min_sub_tour m.size m).length ≥ m.size ↔ hamiltonian m := by
  constructor
  · intro hge
    obtain ⟨h1, _, _, _⟩ := all_tours_props m.size m
    have hmem : min_sub_tour m.size m ∈ all_tours m.size m := by
      rw [(min_sub_tour_fuel_eq m.size m m.size (le_refl _)).2]
      cases hts : all_tours m.size m with
      | nil =>
        have := all_tours_eq_nil.1 hts
        omega
      | cons first rest => exact keep_min_mem first rest
    obtain ⟨hnd, _, hlt, hchain, hle⟩ := h1 _ hmem
    have hvis : visits_all m.size (min_sub_tour m.size m) := ⟨hnd, by omega, hlt⟩
    exact ⟨_, hvis, encodes_cycle_of_chain h3 hsym hdiag hdeg hvis hchain⟩
  · rintro ⟨c, hvis, henc⟩
    have := (min_sub_tour_of_cycle m c h3 hvis henc).2.1
    omega

end tour

namespace utils

/-- The snapshot built from an oracle that agrees with a symmetric matrix with a false
diagonal above the diagonal has the entries of that matrix. -/
theorem get_solutions_of_symmetric {m : matrix Bool} (raw : Nat → Bool)
    (g : Nat → Nat → Bool) (hsym : m.symmetric) (hdiag : m.false_diagonal)
    (hg : ∀ u v, u < v → v < m.size → g u v = m.get u v) :
    ∀ u, u < m.size → ∀ v, v < m.size → (get_solutions m.size raw g).get u v = m.get u v := by
  intro u hu v hv
  rw [get_solutions_get _ _ _ _ _ hu hv]
  unfold snapshot_entry
  by_cases huv : u < v
  · rw [if_pos huv, hg u v huv hv]
  · rw [if_neg huv]
    by_cases hvu : v < u
    · rw [if_pos hvu, hg v u hvu hu, hsym v hv u hu]
    · rw [if_neg hvu]
      have : u = v := by omega
      subst this
      rw [hdiag u hu]

end utils

/-! ## Edges of a Hamiltonian cycle inside a proper subset -/

theorem cyc_succ_iff_next {c : List Nat} (hc : c.Nodup) {x : Nat} (hx : x ∈ c) (y : Nat) :
    cyc_succ c x y ↔ y = cyc_next c x := by
  have hidx := List.getElem?_indexOf hx
  have hlt : c.indexOf x < c.length := List.indexOf_lt_length.2 hx
  constructor
  · rintro ⟨i, hi, h1, h2⟩
    have := nodup_index_eq hc h1 hidx
    subst this
    unfold cyc_next
    rw [getElem?_getD (Nat.mod_lt _ (by omega))] at h2
    simp only [Option.some.injEq] at h2
    exact h2.symm
  · intro h
    subst h
    exact ⟨c.indexOf x, hlt, hidx, getElem?_getD (Nat.mod_lt _ (by omega))⟩

theorem cyc_next_getD {c : List Nat} (hc : c.Nodup) {i : Nat} (hi : i < c.length) :
    cyc_next c (c.getD i 0) = c.getD ((i + 1) % c.length) 0 := by
  have hg := getElem?_getD hi
  have hmem : c.getD i 0 ∈ c := List.getElem?_mem hg
  have := nodup_index_eq hc (List.getElem?_indexOf hmem) hg
  unfold cyc_next
  rw [this]

theorem countP_le_add {p q r : Nat → Bool} : ∀ (l : List Nat),
    (∀ z, z ∈ l → r z = true → p z = true ∨ q z = true) →
    l.countP r ≤ l.countP p + l.countP q := by
  intro l
  induction l with
  | nil => intro _; simp
  | cons a l ih =>
    intro h
    have hl := ih (fun z hz => h z (List.mem_cons_of_mem _ hz))
    have ha := h a (by simp)
    have key : (if r a = true then 1 else 0) ≤
        (if p a = true then 1 else 0) + (if q a = true then 1 else 0) := by
      by_cases hr : r a = true
      · rw [if_pos hr]
        rcases ha hr with hp | hq
        · rw [if_pos hp]; omega
        · rw [if_pos hq]; omega
      · rw [if_neg hr]; omega
    simp only [List.countP_cons]
    omega

theorem countP_add_le {p q r : Nat → Bool} : ∀ (l : List Nat),
    (∀ z, z ∈ l → p z = true → r z = true) → (∀ z, z ∈ l → q z = true → r z = true) →
    (∀ z, z ∈ l → p z = true → q z = true → False) →
    l.countP p + l.countP q ≤ l.countP r := by
  intro l
  induction l with
  | nil => intro _ _ _; simp
  | cons a l ih =>
    intro h1 h2 h3
    have hl := ih (fun z hz => h1 z (List.mem_cons_of_mem _ hz))
      (fun z hz => h2 z (List.mem_cons_of_mem _ hz))
      (fun z hz => h3 z (List.mem_cons_of_mem _ hz))
    have ha1 := h1 a (by simp)
    have ha2 := h2 a (by simp)
    have ha3 := h3 a (by simp)
    have key : (if p a = true then 1 else 0) + (if q a = true then 1 else 0) ≤
        (if r a = true then 1 else 0) := by
      by_cases hp : p a = true
      · have hq : ¬ (q a = true) := fun hq => ha3 hp hq
        rw [if_pos hp, if_neg hq, if_pos (ha1 hp)]
      · rw [if_neg hp]
        by_cases hq : q a = true
        · rw [if_pos hq, if_pos (ha2 hq)]
        · rw [if_neg hq]; omega
    simp only [List.countP_cons]
    omega

namespace subtour_elim

/-- Inside any set of distinct vertices, the selected edges of a Hamiltonian cycle are at
most as many as the vertices of the set whose successor on the cycle is in the set. -/
theorem edges_le_successors {h : utils.matrix Bool} {c : List Nat}
    (hvis : visits_all h.size c) (henc : encodes_cycle h c) :
    ∀ (l : List Nat), l.Nodup → (∀ v, v ∈ l → v < h.size) →
      (pairs l).countP (fun p => h.get p.1 p.2) ≤
        l.countP (fun z => decide (cyc_next c z ∈ l)) := by
  intro l
  induction l with
  | nil => intro _ _; simp [pairs]
  | cons x l ih =>
    intro hnd hlt
    rw [List.nodup_cons] at hnd
    have hx := hlt x (by simp)
    have hl := ih hnd.2 (fun v hv => hlt v (List.mem_cons_of_mem _ hv))
    have hxc : x ∈ c := visits_all_mem hvis x hx
    simp only [pairs, List.countP_append, List.countP_map, List.countP_cons]
    -- the edges at `x`
    have ha : l.countP ((fun p => h.get p.1 p.2) ∘ fun y => (x, y)) ≤
        l.countP (fun y => y == cyc_next c x) + l.countP (fun z => cyc_next c z == x) := by
      apply countP_le_add
      intro y hy hadj
      have hyl := hlt y (List.mem_cons_of_mem _ hy)
      have hadj2 : h.get x y = true := hadj
      rw [henc x hx y hyl] at hadj2
      rcases hadj2 with h1 | h1
      · left
        rw [cyc_succ_iff_next hvis.1 hxc] at h1
        simp [h1]
      · right
        rw [cyc_succ_iff_next hvis.1 (visits_all_mem hvis y hyl)] at h1
        simp [h1]
    have hb : l.countP (fun y => y == cyc_next c x) ≤
        (if decide (cyc_next c x ∈ x :: l) = true then 1 else 0) := by
      rw [← List.count_eq_countP]
      by_cases hm : cyc_next c x ∈ l
      · rw [List.count_eq_one_of_mem hnd.2 hm]
        simp [hm]
      · rw [List.count_eq_zero_of_not_mem hm]
        omega
    have hc : l.countP (fun z => cyc_next c z == x) +
        l.countP (fun z => decide (cyc_next c z ∈ l)) ≤
        l.countP (fun z => decide (cyc_next c z ∈ x :: l)) := by
      apply countP_add_le
      · intro z _ hz
        simp only [beq_iff_eq] at hz
        simp [hz]
      · intro z _ hz
        simp only [decide_eq_true_eq] at hz
        simp [hz]
      · intro z _ hz1 hz2
        simp only [beq_iff_eq] at hz1
        simp only [decide_eq_true_eq] at hz2
        rw [hz1] at hz2
        exact hnd.1 hz2
    omega

/-- A set of vertices closed under the successor of a Hamiltonian cycle, and not empty,
holds every vertex. -/
theorem closed_under_next {n : Nat} {c l : List Nat} (hvis : visits_all n c)
    (hne : l ≠ []) (hlt : ∀ v, v ∈ l → v < n) (hclosed : ∀ z, z ∈ l → cyc_next c z ∈ l) :
    ∀ v, v < n → v ∈ l := by
  obtain ⟨hnd, hlen, hc⟩ := hvis
  obtain ⟨x0, hx0⟩ := List.exists_mem_of_ne_nil l hne
  have hx0c := visits_all_mem ⟨hnd, hlen, hc⟩ x0 (hlt x0 hx0)
  have hi0 : c.indexOf x0 < c.length := List.indexOf_lt_length.2 hx0c
  have hg0 := List.getElem?_indexOf hx0c
  have hstep : ∀ k, c.getD ((c.indexOf x0 + k) % c.length) 0 ∈ l := by
    intro k
    induction k with
    | zero =>
      rw [Nat.add_zero, Nat.mod_eq_of_lt hi0]
      have := getElem?_getD hi0
      rw [hg0] at this
      simp only [Option.some.injEq] at this
      rw [← this]; exact hx0
    | succ k ih =>
      have := hclosed _ ih
      rw [cyc_next_getD hnd (Nat.mod_lt _ (by omega)), Nat.mod_add_mod] at this
      exact this
  intro v hv
  have hvc := visits_all_mem ⟨hnd, hlen, hc⟩ v hv
  have hiv : c.indexOf v < c.length := List.indexOf_lt_length.2 hvc
  have hgv := List.getElem?_indexOf hvc
  have := hstep (c.indexOf v + c.length - c.indexOf x0)
  have e : c.indexOf x0 + (c.indexOf v + c.length - c.indexOf x0) =
      c.indexOf v + c.length := by omega
  rw [e, Nat.add_mod_right, Nat.mod_eq_of_lt hiv] at this
  have h2 := getElem?_getD hiv
  rw [hgv] at h2
  simp only [Option.some.injEq] at h2
  rw [h2]; exact this

/-- Cut soundness: on a proper, non-empty set of distinct vertices a Hamiltonian cycle has
fewer selected edges than the set has vertices. -/
theorem cut_lhs_lt {h : utils.matrix Bool} {c t : List Nat}
    (hvis : visits_all h.size c) (henc : encodes_cycle h c) (hnd : t.Nodup)
    (hlt : ∀ v, v ∈ t → v < h.size) (h1 : 1 ≤ t.length) (h2 : t.length < h.size) :
    cut_lhs h t < t.length := by
  unfold cut_lhs
  rw [cut_expr_eq_pairs]
  have hle := edges_le_successors hvis henc t hnd hlt
  have hle2 : t.countP (fun z => decide (cyc_next c z ∈ t)) ≤ t.length :=
    List.countP_le_length _
  by_contra hge
  have heq : t.countP (fun z => decide (cyc_next c z ∈ t)) = t.length := by omega
  rw [List.countP_eq_length] at heq
  have hclosed : ∀ z, z ∈ t → cyc_next c z ∈ t := by
    intro z hz
    simpa using heq z hz
  have hne : t ≠ [] := by
    intro h0; rw [h0] at h1; simp at h1
  have hall := closed_under_next hvis hne hlt hclosed
  have hsub : c ⊆ t := fun v hv => hall v (hvis.2.2 v hv)
  have := (List.subperm_of_subset hvis.1 hsub).length_le
  rw [hvis.2.1] at this
  omega

end subtour_elim

/-! ## The calls of the oracle made by `get_solutions` -/

namespace utils

theorem get_solutions_row_traced_eq (g : Nat → Nat → Bool) (u : Nat) :
    ∀ (vs : List Nat) (st : matrix Bool × List (Nat × Nat)),
      vs.foldl (fun s v => ((s.1.set u v (g u v)).set v u (g u v), s.2 ++ [(u, v)])) st =
        (vs.foldl (fun s v => (s.set u v (g u v)).set v u (g u v)) st.1,
          st.2 ++ vs.map (fun v => (u, v))) := by
  intro vs
  induction vs with
  | nil => intro st; simp
  | cons v vs ih =>
    intro st
    simp only [List.foldl_cons, ih, List.map_cons, List.append_assoc, List.singleton_append]

/-- The traced run computes the matrix of `get_solutions` and calls the oracle, row by
row, on the pairs `(u, v)` with `u < v < size`. -/
theorem get_solutions_traced_eq (size : Nat) (raw : Nat → Bool) (g : Nat → Nat → Bool) :
    get_solutions_traced size raw g =
      (get_solutions size raw g,
        (List.range size).flatMap (fun u =>
          (List.range' (u + 1) (size - (u + 1))).map (fun v => (u, v)))) := by
  unfold get_solutions_traced get_solutions
  generalize (matrix.mk raw size) = m0
  have key : ∀ (us : List Nat) (st : matrix Bool × List (Nat × Nat)),
      us.foldl (fun st u => get_solutions_row_traced size g u (st.1.set u u false, st.2)) st =
        (us.foldl (fun sols u => get_solutions_row size g u (sols.set u u false)) st.1,
          st.2 ++ us.flatMap (fun u =>
            (List.range' (u + 1) (size - (u + 1))).map (fun v => (u, v)))) := by
    intro us
    induction us with
    | nil => intro st; simp
    | cons u us ih =>
      intro st
      simp only [List.foldl_cons, List.flatMap_cons]
      rw [ih]
      unfold get_solutions_row_traced get_solutions_row
      rw [get_solutions_row_traced_eq]
      simp only [List.append_assoc]
  have := key (List.range size) (m0, [])
  simpa using this

theorem mem_oracle_calls {size : Nat} {p : Nat × Nat} :
    p ∈ (List.range size).flatMap (fun u =>
      (List.range' (u + 1) (size - (u + 1))).map (fun v => (u, v))) ↔
      p.1 < p.2 ∧ p.2 < size := by
  simp only [List.mem_flatMap, List.mem_range, List.mem_map, List.mem_range'_1]
  constructor
  · rintro ⟨u, hu, v, hv, rfl⟩
    simp only
    omega
  · rintro ⟨h1, h2⟩
    exact ⟨p.1, by omega, p.2, by omega, rfl⟩

theorem oracle_calls_eq_cut_expr (size : Nat) :
    (List.range size).flatMap (fun u =>
      (List.range' (u + 1) (size - (u + 1))).map (fun v => (u, v))) =
      subtour_elim.cut_expr (List.range size) := by
  unfold subtour_elim.cut_expr
  rw [List.length_range]
  apply List.flatMap_congr
  intro u hu
  rw [List.mem_range] at hu
  apply List.map_congr_left
  intro v hv
  rw [List.mem_range'_1] at hv
  have h1 : (List.range size).getD u 0 = u := by
    rw [List.getD_eq_getElem?_getD, List.getElem?_range hu]; rfl
  have h2 : (List.range size).getD v 0 = v := by
    rw [List.getD_eq_getElem?_getD, List.getElem?_range (by omega)]; rfl
  rw [h1, h2]

/-- Every pair `u < v < size` is asked of the oracle exactly once, and its mirror never. -/
theorem count_oracle_calls {size u v : Nat} (huv : u < v) (hv : v < size) :
    ((List.range size).flatMap (fun u =>
      (List.range' (u + 1) (size - (u + 1))).map (fun v => (u, v)))).count (u, v) = 1 ∧
    ((List.range size).flatMap (fun u =>
      (List.range' (u + 1) (size - (u + 1))).map (fun v => (u, v)))).count (v, u) = 0 := by
  have h0 : ((List.range size).flatMap (fun u =>
      (List.range' (u + 1) (size - (u + 1))).map (fun v => (u, v)))).count (v, u) = 0 := by
    apply List.count_eq_zero_of_not_mem
    intro hm
    rw [mem_oracle_calls] at hm
    simp only at hm
    omega
  refine ⟨?_, h0⟩
  have hsum := subtour_elim.count_pairs (List.nodup_range size) (a := u) (b := v)
    (by omega) (List.mem_range.2 (by omega)) (List.mem_range.2 hv)
  rw [← subtour_elim.cut_expr_eq_pairs, ← oracle_calls_eq_cut_expr] at hsum
  omega

end utils

/-! ## Every tour of a degree-two snapshot is a closed cycle -/

namespace tour

/-- One walk of `next_tour` in a symmetric matrix with a false diagonal and two true
entries per row, started while the seen vertices are closed under adjacency: the walk is a
closed cycle on at least three vertices that holds all neighbours of its vertices, and the
seen vertices are closed under adjacency again. -/
theorem walk_closed {it it1 : iter_tours} {node : Nat} {w : List Nat}
    (hcount : it.count = it.solution.size) (hsym : it.solution.symmetric)
    (hdiag : it.solution.false_diagonal) (hdeg : it.solution.degree_two)
    (hcl : closed_seen it) (hw : iter_tours.walk_spec it.count it node w it1)
    (hne : w ≠ []) :
    3 ≤ w.length ∧ closed_cycle it.solution w ∧ neighbours_inside it.solution w ∧
      closed_seen it1 := by
  have hk : 0 < w.length := List.length_pos.2 hne
  have hget : ∀ i, i < w.length → w[i]? = some (w.getD i 0) := fun i hi => getElem?_getD hi
  have hmemD : ∀ i, i < w.length → w.getD i 0 ∈ w := fun i hi => List.getElem?_mem (hget i hi)
  have hltD : ∀ i, i < w.length → w.getD i 0 < it.solution.size := by
    intro i hi
    rw [← hcount]; exact (hw.fresh _ (hmemD i hi)).1
  have hinj : ∀ i j, i < w.length → j < w.length → w.getD i 0 = w.getD j 0 → i = j := by
    intro i j hi hj h
    have h1 := hget i hi
    rw [h] at h1
    exact nodup_index_eq hw.nodup h1 (hget j hj)
  have hidx : ∀ v, v ∈ w → ∃ i, i < w.length ∧ w.getD i 0 = v := by
    intro v hv
    rw [List.mem_iff_getElem?] at hv
    obtain ⟨i, hi⟩ := hv
    have hil : i < w.length := by
      rw [List.getElem?_eq_some_iff] at hi; exact hi.1
    refine ⟨i, hil, ?_⟩
    have := hget i hil
    rw [hi] at this
    simp only [Option.some.injEq] at this
    exact this.symm
  have hstep : ∀ i, i + 1 < w.length →
      it.solution.get (w.getD i 0) (w.getD (i + 1) 0) = true :=
    fun i hi => chain_getD w hw.chain i hi
  have hstep2 : ∀ i, i + 1 < w.length →
      it.solution.get (w.getD (i + 1) 0) (w.getD i 0) = true := by
    intro i hi
    rw [hsym _ (hltD _ hi) _ (hltD _ (by omega))]
    exact hstep i hi
  -- a neighbour of a walk vertex was not seen before the walk
  have hnew : ∀ u, u ∈ w → ∀ v, v < it.solution.size → it.solution.get u v = true →
      it.is_seen v = false := by
    intro u hu v hv hadj
    obtain ⟨hult, hunseen⟩ := hw.fresh u hu
    cases hs : it.is_seen v with
    | false => rfl
    | true =>
      have hvu : it.solution.get v u = true := by
        rw [hsym v hv u (by rw [← hcount]; exact hult)]; exact hadj
      have := hcl v u (by rw [hcount]; exact hv) hult hs hvu
      rw [hunseen] at this; cases this
  -- the neighbours of the last vertex are in the walk
  have hlast : ∀ v, v < it.solution.size →
      it.solution.get (w.getD (w.length - 1) 0) v = true → v ∈ w := by
    intro v hv hadj
    by_cases hfull : w.length < it.count
    · have hgl : w.getLast? = some (w.getD (w.length - 1) 0) := by
        rw [List.getLast?_eq_getElem?]; exact hget _ (by omega)
      have hseen := hw.stop hfull _ hgl v (by rw [hcount]; exact hv) hadj
      rcases (hw.seen_iff v).1 hseen with h | h
      · rw [hnew _ (hmemD _ (by omega)) v hv hadj] at h; cases h
      · exact h
    · have hlen : w.length = it.solution.size := by
        have := hw.length_le
        omega
      exact visits_all_mem ⟨hw.nodup, hlen, fun x hx => by
        rw [← hcount]; exact (hw.fresh x hx).1⟩ v hv
  -- the closing edge
  have hclose : 3 ≤ w.length ∧
      it.solution.get (w.getD (w.length - 1) 0) (w.getD 0 0) = true := by
    obtain ⟨y, hy, hne2, hadj⟩ := degree_two_other
      (hdeg _ (hltD (w.length - 1) (by omega))) (w.getD (w.length - 2) 0)
    obtain ⟨j, hj, hjy⟩ := hidx y (hlast y hy hadj)
    subst hjy
    have hj1 : j ≠ w.length - 1 := by
      intro h
      rw [h, hdiag _ (hltD _ (by omega))] at hadj
      cases hadj
    have hj2 : j ≠ w.length - 2 := fun h => hne2 (by rw [h])
    by_cases hj0 : j = 0
    · subst hj0
      exact ⟨by omega, hadj⟩
    · exfalso
      have e1 : j - 1 + 1 = j := by omega
      have ha := hstep2 (j - 1) (by omega)
      rw [e1] at ha
      have hb := hstep j (by omega)
      have hc : it.solution.get (w.getD j 0) (w.getD (w.length - 1) 0) = true := by
        rw [hsym _ (hltD _ hj) _ (hltD _ (by omega))]; exact hadj
      refine degree_three_absurd (hdeg _ (hltD j hj)) (hltD (j - 1) (by omega))
        (hltD (j + 1) (by omega)) (hltD (w.length - 1) (by omega)) ?_ ?_ ?_ ha hb hc
      · intro h; have := hinj _ _ (by omega) (by omega) h; omega
      · intro h; have := hinj _ _ (by omega) (by omega) h; omega
      · intro h; have := hinj _ _ (by omega) (by omega) h; omega
  obtain ⟨h3, hcl2⟩ := hclose
  have hnext : ∀ i, i < w.length →
      it.solution.get (w.getD i 0) (w.getD ((i + 1) % w.length) 0) = true := by
    intro i hi
    by_cases hin : i + 1 < w.length
    · rw [Nat.mod_eq_of_lt hin]; exact hstep i hin
    · have : i + 1 = w.length := by omega
      rw [this, Nat.mod_self]
      have : i = w.length - 1 := by omega
      rw [this]; exact hcl2
  have hprev : ∀ i, i < w.length →
      it.solution.get (w.getD ((i + 1) % w.length) 0) (w.getD i 0) = true := by
    intro i hi
    rw [hsym _ (hltD _ (Nat.mod_lt _ (by omega))) _ (hltD _ hi)]
    exact hnext i hi
  have hinside : neighbours_inside it.solution w := by
    intro u hu v hv hadj
    obtain ⟨i, hi, hiu⟩ := hidx u hu
    subst hiu
    obtain ⟨i', hi', hi'eq⟩ : ∃ i', i' < w.length ∧ (i' + 1) % w.length = i := by
      by_cases h0 : i = 0
      · refine ⟨w.length - 1, by omega, ?_⟩
        have : w.length - 1 + 1 = w.length := by omega
        rw [this, Nat.mod_self, h0]
      · refine ⟨i - 1, by omega, ?_⟩
        have : i - 1 + 1 = i := by omega
        rw [this, Nat.mod_eq_of_lt hi]
    have hpi := hprev i' hi'
    rw [hi'eq] at hpi
    have hni := hnext i hi
    have hdist : (i + 1) % w.length ≠ i' := by
      intro h
      by_cases hin : i + 1 < w.length
      · rw [Nat.mod_eq_of_lt hin] at h
        subst h
        by_cases hin2 : i + 1 + 1 < w.length
        · rw [Nat.mod_eq_of_lt hin2] at hi'eq; omega
        · have : i + 1 + 1 = w.length := by omega
          rw [this, Nat.mod_self] at hi'eq; omega
      · have : i + 1 = w.length := by omega
        rw [this, Nat.mod_self] at h
        subst h
        rw [Nat.zero_add, Nat.mod_eq_of_lt (by omega)] at hi'eq
        omega
    by_cases hv1 : v = w.getD ((i + 1) % w.length) 0
    · rw [hv1]; exact hmemD _ (Nat.mod_lt _ (by omega))
    · by_cases hv2 : v = w.getD i' 0
      · rw [hv2]; exact hmemD _ hi'
      · exfalso
        refine degree_three_absurd (hdeg _ (hltD i hi))
          (hltD ((i + 1) % w.length) (Nat.mod_lt _ (by omega))) (hltD i' hi') hv
          ?_ (fun h => hv1 h.symm) (fun h => hv2 h.symm) hni hpi hadj
        intro h; exact hdist (hinj _ _ (Nat.mod_lt _ (by omega)) hi' h)
  refine ⟨h3, ⟨hw.chain, hcl2⟩, hinside, ?_⟩
  intro u v hu hv hsu hadj
  rw [hw.count_eq] at hu hv
  rw [hw.solution_eq] at hadj
  rcases (hw.seen_iff u).1 hsu with h | h
  · exact (hw.seen_iff v).2 (Or.inl (hcl u v hu hv h hadj))
  · exact (hw.seen_iff v).2 (Or.inr (hinside u h v (by rw [← hcount]; exact hv) hadj))

theorem decomposes_closed {it : iter_tours} {ts : List tour} (h : decomposes it ts) :
    it.wf → it.count = it.solution.size → it.solution.symmetric →
    it.solution.false_diagonal → it.solution.degree_two → closed_seen it →
    ∀ t, t ∈ ts → 3 ≤ t.length ∧ closed_cycle it.solution t ∧
      neighbours_inside it.solution t := by
  induction h with
  | done it _ => intro _ _ _ _ _ _ t ht; simp at ht
  | step it t it1 ts hs _ ih =>
    intro hwf hcount hsym hdiag hdeg hcl t2 ht2
    obtain ⟨node, hnode, hw⟩ := next_tour_spec hwf hs
    have hne := walk_ne_nil hw (new_node_pos hnode)
    obtain ⟨h3, hcc, hin, hcl1⟩ := walk_closed hcount hsym hdiag hdeg hcl hw hne
    rcases List.mem_cons.1 ht2 with h | h
    · subst h; exact ⟨h3, hcc, hin⟩
    · have := ih hw.wf (by rw [hw.count_eq, hw.solution_eq]; exact hcount)
        (by rw [hw.solution_eq]; exact hsym) (by rw [hw.solution_eq]; exact hdiag)
        (by rw [hw.solution_eq]; exact hdeg) hcl1 t2 h
      rw [hw.solution_eq] at this
      exact this

/-- In a symmetric matrix with a false diagonal and two true entries per row, every tour
of the decomposition is a closed cycle on at least three vertices. -/
theorem all_tours_closed {m : utils.matrix Bool} (hsym : m.symmetric)
    (hdiag : m.false_diagonal) (hdeg : m.degree_two) :
    ∀ t, t ∈ all_tours m.size m → 3 ≤ t.length ∧ closed_cycle m t ∧ neighbours_inside m t := by
  obtain ⟨hd, _⟩ := decomposes_all_tours m.size m
  have hcl : closed_seen (iter_tours.init m.size m) := by
    intro u v _ _ hs _
    rw [iter_tours.is_seen_init] at hs; cases hs
  exact decomposes_closed hd (iter_tours.wf_init _ _) rfl hsym hdiag hdeg hcl

end tour

/-! ## Counting the edges inside a closed cycle -/

namespace subtour_elim

theorem sum_countP_cons (m : utils.matrix Bool) (x : Nat) (l : List Nat) :
    ∀ (l2 : List Nat),
      (l2.map (fun y => (x :: l).countP (fun v => m.get y v))).sum =
        (l2.map (fun y => l.countP (fun v => m.get y v))).sum +
          l2.countP (fun y => m.get y x) := by
  intro l2
  induction l2 with
  | nil => simp
  | cons a l2 ih =>
    have h1 : (x :: l).countP (fun v => m.get a v) =
        l.countP (fun v => m.get a v) + if m.get a x = true then 1 else 0 :=
      List.countP_cons _ _ _
    have h2 : (a :: l2).countP (fun y => m.get y x) =
        l2.countP (fun y => m.get y x) + if m.get a x = true then 1 else 0 :=
      List.countP_cons _ _ _
    simp only [List.map_cons, List.sum_cons]
    rw [ih, h1, h2]
    omega

/-- Twice the number of selected pairs inside `l` is the sum of the degrees inside `l`. -/
theorem sum_degrees_eq (m : utils.matrix Bool) : ∀ (l : List Nat),
    (∀ u, u ∈ l → ∀ v, v ∈ l → m.get u v = m.get v u) → (∀ u, u ∈ l → m.get u u = false) →
    (l.map (fun y => l.countP (fun v => m.get y v))).sum =
      2 * (pairs l).countP (fun p => m.get p.1 p.2) := by
  intro l
  induction l with
  | nil => intro _ _; simp [pairs]
  | cons x l ih =>
    intro hsym hdiag
    have hl := ih (fun u hu v hv => hsym u (List.mem_cons_of_mem _ hu) v
      (List.mem_cons_of_mem _ hv)) (fun u hu => hdiag u (List.mem_cons_of_mem _ hu))
    have hxx := hdiag x (by simp)
    have hcongr : l.countP (fun y => m.get y x) = l.countP (fun v => m.get x v) := by
      apply List.countP_congr
      intro y hy
      rw [hsym y (List.mem_cons_of_mem _ hy) x (by simp)]
    have hmap : (l.map (fun y => (x, y))).countP (fun p => m.get p.1 p.2) =
        l.countP (fun v => m.get x v) := by
      rw [List.countP_map]; rfl
    rw [List.map_cons, List.sum_cons, sum_countP_cons, hl, hcongr]
    simp only [pairs, List.countP_append, hmap, List.countP_cons, hxx]
    simp only [Bool.false_eq_true, if_false]
    omega

theorem countP_eq_row_degree {m : utils.matrix Bool} {t : List Nat} (hnd : t.Nodup)
    (hlt : ∀ v, v ∈ t → v < m.size) {x : Nat}
    (hin : ∀ v, v < m.size → m.get x v = true → v ∈ t) :
    t.countP (fun v => m.get x v) = m.row_degree x := by
  unfold utils.matrix.row_degree
  rw [List.countP_eq_length_filter]
  apply List.Perm.length_eq
  rw [List.perm_ext_iff_of_nodup (hnd.filter _) ((List.nodup_range m.size).filter _)]
  intro a
  simp only [List.mem_filter, List.mem_range]
  constructor
  · rintro ⟨h1, h2⟩; exact ⟨hlt a h1, h2⟩
  · rintro ⟨h1, h2⟩; exact ⟨hin a h1 h2, h2⟩

/-- Inside a set of distinct vertices that holds all neighbours of its vertices, a
symmetric matrix with a false diagonal and two true entries per row selects as many pairs
as the set has vertices. -/
theorem cut_lhs_eq_length {m : utils.matrix Bool} {t : List Nat} (hsym : m.symmetric)
    (hdiag : m.false_diagonal) (hdeg : m.degree_two) (hnd : t.Nodup)
    (hlt : ∀ v, v ∈ t → v < m.size) (hin : neighbours_inside m t) :
    cut_lhs m t = t.length := by
  unfold cut_lhs
  rw [cut_expr_eq_pairs]
  have hsum := sum_degrees_eq m t (fun u hu v hv => hsym u (hlt u hu) v (hlt v hv))
    (fun u hu => hdiag u (hlt u hu))
  have hconst : t.map (fun y => t.countP (fun v => m.get y v)) = t.map (fun _ => 2) := by
    apply List.map_congr_left
    intro y hy
    rw [countP_eq_row_degree hnd hlt (hin y hy), hdeg y (hlt y hy)]
  rw [hconst] at hsum
  simp only [List.map_const', List.sum_replicate, smul_eq_mul] at hsum
  omega

end subtour_elim

namespace tour

theorem min_sub_tour_mem_all_tours {count : Nat} (solution : utils.matrix Bool)
    (h : 0 < count) : min_sub_tour count solution ∈ all_tours count solution := by
  rw [(min_sub_tour_fuel_eq count solution count (le_refl _)).2]
  cases hts : all_tours count solution with
  | nil =>
    have := all_tours_eq_nil.1 hts
    omega
  | cons first rest => exact keep_min_mem first rest

end tour

/-! ## The claims -/

/-- C1, the claim as stated fails without vertices: for the empty matrix `min_sub_tour`
returns the empty tour, which is none of the (zero) tours of the decomposition. -/
theorem min_sub_tour_not_mem_of_empty :
    tour.min_sub_tour example_empty.size example_empty ∉
      tour.all_tours example_empty.size example_empty := by
  decide

/-- C1 (amended): for every square matrix with at least one vertex, the tour returned by
`tour::min_sub_tour` is one of the tours produced by the decomposition; without vertices
the decomposition produces no tour and the empty tour is returned; in both cases the
length of the returned tour is at most the length of every tour of the decomposition. -/
theorem min_sub_tour_minimal (solution : utils.matrix Bool) :
    (0 < solution.size →
      tour.min_sub_tour solution.size solution ∈ tour.all_tours solution.size solution) ∧
    (solution.size = 0 →
      tour.all_tours solution.size solution = [] ∧
        tour.min_sub_tour solution.size solution = []) ∧
    (∀ t, t ∈ tour.all_tours solution.size solution →
      (tour.min_sub_tour solution.size solution).length ≤ t.length) := by
  have h := (tour.min_sub_tour_fuel_eq solution.size solution solution.size (le_refl _)).2
  have hnil := @tour.all_tours_eq_nil solution.size solution
  rw [h]
  cases hall : tour.all_tours solution.size solution with
  | nil =>
    rw [hall] at hnil
    refine ⟨fun hpos => ?_, fun _ => ⟨rfl, rfl⟩, by simp⟩
    have := hnil.1 rfl
    omega
  | cons first rest =>
    rw [hall] at hnil
    refine ⟨fun _ => tour.keep_min_mem first rest, fun h0 => ?_,
      fun t ht => tour.keep_min_length_le first rest t ht⟩
    have := hnil.2 h0
    cases this

/-- C1, an instance: on the five-vertex example the returned tour is a decomposed tour. -/
theorem min_sub_tour_minimal_witness :
    0 < example_five.size ∧
      tour.min_sub_tour example_five.size example_five ∈
        tour.all_tours example_five.size example_five :=
  ⟨by decide, (min_sub_tour_minimal example_five).1 (by decide)⟩

/-- C2, the claim as stated fails: for the triangle `0, 1, 2` with the isolated vertex `3`
(symmetric, every row with two true entries or none) the lengths of the decomposed tours
sum to four, while only three vertices are not isolated. -/
theorem tour_lengths_sum_ne_non_isolated :
    example_isolated.symmetric ∧ example_isolated.degree_two_or_isolated ∧
      tour.all_tours example_isolated.size example_isolated = [[0, 1, 2], [3]] ∧
      ((tour.all_tours example_isolated.size example_isolated).map List.length).sum ≠
        ((List.range example_isolated.size).filter
          (fun u => decide (example_isolated.row_degree u ≠ 0))).length := by
  decide

/-- C2 (amended): for every symmetric square matrix in which each row has exactly two
true entries or none, the tours produced by the decomposition have pairwise disjoint
vertex sets, their union is the full vertex set `0 .. n-1`, every isolated vertex is
produced as a one-vertex tour of its own, and the lengths of the tours sum to `n`. -/
theorem decomposition_partition (solution : utils.matrix Bool)
    (hsym : solution.symmetric) (_hdeg : solution.degree_two_or_isolated) :
    (tour.all_tours solution.size solution).Pairwise List.Disjoint ∧
    (∀ v, v < solution.size ↔ ∃ t, t ∈ tour.all_tours solution.size solution ∧ v ∈ t) ∧
    (∀ v, v < solution.size → solution.row_degree v = 0 →
      [v] ∈ tour.all_tours solution.size solution) ∧
    ((tour.all_tours solution.size solution).map List.length).sum = solution.size := by
  obtain ⟨h1, h2, h3, h4⟩ := tour.all_tours_props solution.size solution
  refine ⟨h2, ?_, ?_, h4⟩
  · intro v
    constructor
    · exact h3 v
    · rintro ⟨t, ht, hv⟩
      exact (h1 t ht).2.2.1 v hv
  · intro v hv hiso
    obtain ⟨t, ht, hvt⟩ := h3 v hv
    obtain ⟨_, _, hlt, hchain, _⟩ := h1 t ht
    have hrow := tour.row_degree_eq_zero.1 hiso
    rcases tour.chain_mem_cases hchain hvt with h | ⟨a, ha, h | h⟩
    · rw [← h]; exact ht
    · have := hsym a (hlt a ha) v hv
      rw [h, hrow a (hlt a ha)] at this
      cases this
    · rw [hrow a (hlt a ha)] at h
      cases h

/-- C2, an instance: the triangle with an isolated vertex. -/
theorem decomposition_partition_witness :
    example_isolated.symmetric ∧ example_isolated.degree_two_or_isolated ∧
      ((tour.all_tours example_isolated.size example_isolated).map List.length).sum =
        example_isolated.size :=
  ⟨by decide, by decide,
    (decomposition_partition example_isolated (by decide) (by decide)).2.2.2⟩

/-- C8: for every square matrix, with no assumption on its entries, every tour produced by
the decomposition, and the tour returned by `tour::min_sub_tour`, contains each vertex
index at most once, has only indices below `n`, and has length at most `n`. -/
theorem tours_nodup_bounded (solution : utils.matrix Bool) :
    (∀ t, t ∈ tour.all_tours solution.size solution →
      t.Nodup ∧ (∀ v, v ∈ t → v < solution.size) ∧ t.length ≤ solution.size) ∧
    ((tour.min_sub_tour solution.size solution).Nodup ∧
      (∀ v, v ∈ tour.min_sub_tour solution.size solution → v < solution.size) ∧
      (tour.min_sub_tour solution.size solution).length ≤ solution.size) := by
  obtain ⟨h1, _, _, _⟩ := tour.all_tours_props solution.size solution
  have hall : ∀ t, t ∈ tour.all_tours solution.size solution →
      t.Nodup ∧ (∀ v, v ∈ t → v < solution.size) ∧ t.length ≤ solution.size := by
    intro t ht
    obtain ⟨a, _, c, _, e⟩ := h1 t ht
    exact ⟨a, c, e⟩
  refine ⟨hall, ?_⟩
  have h := (tour.min_sub_tour_fuel_eq solution.size solution solution.size (le_refl _)).2
  rw [h]
  cases hts : tour.all_tours solution.size solution with
  | nil => simp
  | cons first rest =>
    apply hall
    rw [hts]
    exact tour.keep_min_mem first rest

/-- C7, the claim as stated fails: for the all-false oracle on two vertices the snapshot is
all false, yet `min_sub_tour` returns the one-vertex tour `0` and
`lazy_constraint_subtour_elimination` emits the cut `0 ≤ 0` with an empty left-hand
side. -/
theorem all_false_not_empty :
    (utils.get_solutions 2 (fun _ => false) (fun _ _ => false)).all_false ∧
      tour.min_sub_tour 2 (utils.get_solutions 2 (fun _ => false) (fun _ _ => false)) = [0] ∧
      subtour_elim.lazy_constraint_subtour_elimination 2 (fun _ => false) (fun _ _ => false) =
        some { expr := [], rel := subtour_elim.sense.less_equal, rhs := 0 } := by
  decide

/-- C7 (amended): for every `n`, when the `n × n` adjacency matrix is all false,
`tour::min_sub_tour` returns the empty tour if `n = 0` and the one-vertex tour `0`
otherwise, and `lazy_constraint_subtour_elimination` emits no cut if `n ≤ 1` and, for
`n ≥ 2`, the cut with an empty left-hand side and bound `0`. -/
theorem all_false_decomposition (solution : utils.matrix Bool) (raw : Nat → Bool)
    (get_solution : Nat → Nat → Bool) (hfalse : solution.all_false)
    (hg : ∀ u v, u < v → v < solution.size → get_solution u v = false) :
    tour.min_sub_tour solution.size solution = (if solution.size = 0 then [] else [0]) ∧
    subtour_elim.lazy_constraint_subtour_elimination solution.size raw get_solution =
      (if solution.size ≤ 1 then none
       else some { expr := [], rel := subtour_elim.sense.less_equal, rhs := 0 }) := by
  have h1 := tour.all_false_min_sub_tour hfalse
  refine ⟨h1, ?_⟩
  have hcongr : tour.min_sub_tour solution.size
      (utils.get_solutions solution.size raw get_solution) =
      tour.min_sub_tour solution.size solution := by
    apply (tour.min_sub_tour_congr _).1
    intro u hu v hv
    rw [utils.get_solutions_get _ _ _ _ _ hu hv, hfalse u hu v hv]
    unfold utils.snapshot_entry
    by_cases huv : u < v
    · rw [if_pos huv, hg u v huv hv]
    · rw [if_neg huv]
      by_cases hvu : v < u
      · rw [if_pos hvu, hg v u hvu hu]
      · rw [if_neg hvu]
  unfold subtour_elim.lazy_constraint_subtour_elimination utils.min_sub_tour
  simp only [hcongr, h1]
  by_cases h0 : solution.size = 0
  · simp [h0]
  · by_cases h2 : solution.size ≤ 1
    · have : 1 ≥ solution.size := h2
      simp [h0, h2, this]
    · have : ¬ (1 ≥ solution.size) := h2
      simp only [h0, h2, if_false, List.length_singleton, this]
      rfl

/-- C7, an instance: the all-false matrix on two vertices. -/
theorem all_false_decomposition_witness :
    (utils.matrix.ofRows [[false, false], [false, false]]).all_false ∧
      tour.min_sub_tour 2 (utils.matrix.ofRows [[false, false], [false, false]]) = [0] :=
  ⟨by decide,
    (all_false_decomposition (utils.matrix.ofRows [[false, false], [false, false]])
      (fun _ => false) (fun _ _ => false) (by decide) (fun _ _ _ _ => rfl)).1⟩

/-- C9, the code at the failing input: when `program.run()` raises
`utils::invalid_solution`, with zero solutions or with an incomplete tour (here the
five-vertex example, whose minimum tour is `3, 4`), `main` returns `EXIT_SUCCESS`, that
is `0`, while every other exception makes it return a non-zero code. -/
theorem main_success_on_invalid_solution :
    (∀ order raw x, program.run 0 order raw x = Except.error (exn.invalid_solution none)) ∧
    program.run 1 5 (fun _ => false) (fun _ => example_five.get) =
      Except.error (exn.invalid_solution (some [3, 4])) ∧
    (∀ subtour, modelo.main (Except.error (exn.invalid_solution subtour)) = 0) ∧
    modelo.main (Except.ok ()) = 0 ∧
    modelo.main (Except.error exn.std_exception) ≠ 0 ∧
    modelo.main (Except.error exn.grb_exception) ≠ 0 ∧
    modelo.main (Except.error exn.unknown) ≠ 0 := by
  refine ⟨fun _ _ _ => rfl, by rfl, fun _ => rfl, rfl, by decide, by decide, by decide⟩

/-- C6: whenever `lazy_constraint_subtour_elimination` emits a cut for the minimum tour `C`
on `n` vertices (`n` a `size_t`), `1 ≤ |C| < n`, the left-hand expression is made of
`|C|·(|C|−1)/2` terms, it holds the variable of every unordered pair of distinct vertices
of `C` exactly once and only variables of such pairs, the relation is `≤`, and the bound
is `|C| − 1` without wrap-around; on the five-vertex example with cycles `(0,1,2)` and
`(3,4)` the decomposer returns `(3,4)` and the cut is `x[3][4] ≤ 1`. -/
theorem lazy_cut_shape (n : Nat) (raw : Nat → Bool) (get_solution : Nat → Nat → Bool)
    (cut : subtour_elim.lazy_cut) (hn : n < 2 ^ 64)
    (hcut : subtour_elim.lazy_constraint_subtour_elimination n raw get_solution = some cut) :
    1 ≤ (utils.min_sub_tour n raw get_solution).length ∧
    (utils.min_sub_tour n raw get_solution).length < n ∧
    cut.expr.length = (utils.min_sub_tour n raw get_solution).length *
      ((utils.min_sub_tour n raw get_solution).length - 1) / 2 ∧
    (∀ a b, a ∈ utils.min_sub_tour n raw get_solution →
      b ∈ utils.min_sub_tour n raw get_solution → a ≠ b →
      cut.expr.count (a, b) + cut.expr.count (b, a) = 1) ∧
    (∀ p, p ∈ cut.expr → p.1 ∈ utils.min_sub_tour n raw get_solution ∧
      p.2 ∈ utils.min_sub_tour n raw get_solution ∧ p.1 ≠ p.2) ∧
    cut.rel = subtour_elim.sense.less_equal ∧
    cut.rhs + 1 = (utils.min_sub_tour n raw get_solution).length ∧
    (∀ raw5, utils.min_sub_tour 5 raw5 example_five.get = [3, 4] ∧
      subtour_elim.lazy_constraint_subtour_elimination 5 raw5 example_five.get =
        some { expr := [(3, 4)], rel := subtour_elim.sense.less_equal, rhs := 1 }) := by
  have hex : ∀ raw5, utils.min_sub_tour 5 raw5 example_five.get = [3, 4] := by
    intro raw5
    have hc : tour.min_sub_tour 5 (utils.get_solutions 5 raw5 example_five.get) =
        tour.min_sub_tour 5 example_five := by
      apply (tour.min_sub_tour_congr _).1
      intro u hu v hv
      rw [utils.get_solutions_get _ _ _ _ _ hu hv]
      revert v
      revert u
      decide
    unfold utils.min_sub_tour
    rw [hc]
    decide
  have hb := tours_shape_aux n (utils.get_solutions n raw get_solution)
  unfold subtour_elim.lazy_constraint_subtour_elimination at hcut
  simp only [] at hcut
  have hlt : (utils.min_sub_tour n raw get_solution).length < n := by
    by_contra hge
    rw [if_pos (by omega)] at hcut
    cases hcut
  rw [if_neg (by omega)] at hcut
  simp only [Option.some.injEq] at hcut
  have hpos : 1 ≤ (utils.min_sub_tour n raw get_solution).length := by
    have h0 : 0 < n := by omega
    exact hb.2.1 h0
  have hnd : (utils.min_sub_tour n raw get_solution).Nodup := hb.1
  subst hcut
  refine ⟨hpos, hlt, ?_, ?_, ?_, rfl, ?_, ?_⟩
  · show (subtour_elim.cut_expr (utils.min_sub_tour n raw get_solution)).length = _
    rw [subtour_elim.cut_expr_eq_pairs]
    have := subtour_elim.length_pairs (utils.min_sub_tour n raw get_solution)
    omega
  · intro a b ha hb2 hab
    show (subtour_elim.cut_expr (utils.min_sub_tour n raw get_solution)).count (a, b) +
      (subtour_elim.cut_expr (utils.min_sub_tour n raw get_solution)).count (b, a) = 1
    rw [subtour_elim.cut_expr_eq_pairs]
    exact subtour_elim.count_pairs hnd hab ha hb2
  · intro p hp
    have hp2 : p ∈ subtour_elim.cut_expr (utils.min_sub_tour n raw get_solution) := hp
    rw [subtour_elim.cut_expr_eq_pairs] at hp2
    exact subtour_elim.mem_pairs hnd hp2
  · show ((utils.min_sub_tour n raw get_solution).length + (2 ^ 64 - 1)) % 2 ^ 64 + 1 = _
    omega
  · intro raw5
    refine ⟨hex raw5, ?_⟩
    unfold subtour_elim.lazy_constraint_subtour_elimination
    simp only [hex raw5]
    decide

/-- C6, an instance: the cut emitted on the five-vertex example. -/
theorem lazy_cut_shape_witness :
    subtour_elim.lazy_constraint_subtour_elimination 5 (fun _ => false) example_five.get =
        some { expr := [(3, 4)], rel := subtour_elim.sense.less_equal, rhs := 1 } ∧
      (1 : Nat) + 1 = (utils.min_sub_tour 5 (fun _ => false) example_five.get).length :=
  ⟨by decide,
    (lazy_cut_shape 5 (fun _ => false) example_five.get
      { expr := [(3, 4)], rel := subtour_elim.sense.less_equal, rhs := 1 }
      (by decide) (by decide)).2.2.2.2.2.2.1⟩

/-- C5, the claim as stated fails: the square `0 - 1 - 2 - 3 - 0` is the matrix of the
cyclic sequence `0, 3, 2, 1`, but `min_sub_tour` returns `0, 1, 2, 3`, which is the
reversed cycle and no rotation of `0, 3, 2, 1`. -/
theorem min_sub_tour_not_rotation :
    visits_all example_square.size [0, 3, 2, 1] ∧ encodes_cycle example_square [0, 3, 2, 1] ∧
      tour.min_sub_tour example_square.size example_square = [0, 1, 2, 3] ∧
      ¬ List.IsRotated [0, 3, 2, 1] (tour.min_sub_tour example_square.size example_square) := by
  decide

/-- C5 (amended): for every `n ≥ 3` and every cyclic sequence `c` that visits each of the
`n` vertices exactly once, if the true entries of the matrix are exactly the consecutive
pairs of `c` (last and first included), then `tour::min_sub_tour` returns a sequence of
length `n` that is a rotation of `c` or a rotation of the reversal of `c`. -/
theorem min_sub_tour_hamiltonian (solution : utils.matrix Bool) (c : List Nat)
    (h3 : 3 ≤ solution.size) (hvis : visits_all solution.size c)
    (henc : encodes_cycle solution c) :
    (tour.min_sub_tour solution.size solution).length = solution.size ∧
      (List.IsRotated c (tour.min_sub_tour solution.size solution) ∨
        List.IsRotated c.reverse (tour.min_sub_tour solution.size solution)) :=
  (tour.min_sub_tour_of_cycle solution c h3 hvis henc).2

/-- C5, an instance: the square with the cyclic sequence `0, 3, 2, 1`. -/
theorem min_sub_tour_hamiltonian_witness :
    3 ≤ example_square.size ∧ visits_all example_square.size [0, 3, 2, 1] ∧
      encodes_cycle example_square [0, 3, 2, 1] ∧
      (tour.min_sub_tour example_square.size example_square).length = example_square.size :=
  ⟨by decide, by decide, by decide,
    (min_sub_tour_hamiltonian example_square [0, 3, 2, 1] (by decide) (by decide)
      (by decide)).1⟩

/-- C3: for every `n ≥ 3` and every symmetric adjacency snapshot with a false diagonal in
which every vertex has exactly two true entries, `lazy_constraint_subtour_elimination`
(run on an oracle with that snapshot) emits a cut if and only if the snapshot is not a
single Hamiltonian cycle through all `n` vertices; in particular a snapshot that is a
single Hamiltonian cycle receives no cut. -/
theorem cut_iff_not_hamiltonian (snapshot : utils.matrix Bool) (raw : Nat → Bool)
    (get_solution : Nat → Nat → Bool) (h3 : 3 ≤ snapshot.size)
    (hsym : snapshot.symmetric) (hdiag : snapshot.false_diagonal)
    (hdeg : snapshot.degree_two)
    (hg : ∀ u v, u < v → v < snapshot.size → get_solution u v = snapshot.get u v) :
    ((∃ cut, subtour_elim.lazy_constraint_subtour_elimination snapshot.size raw get_solution =
        some cut) ↔ ¬ hamiltonian snapshot) ∧
    (hamiltonian snapshot →
      subtour_elim.lazy_constraint_subtour_elimination snapshot.size raw get_solution =
        none) := by
  have hcongr : tour.min_sub_tour snapshot.size
      (utils.get_solutions snapshot.size raw get_solution) =
      tour.min_sub_tour snapshot.size snapshot :=
    (tour.min_sub_tour_congr
      (utils.get_solutions_of_symmetric raw get_solution hsym hdiag hg)).1
  have hiff := tour.min_sub_tour_full_iff h3 hsym hdiag hdeg
  unfold subtour_elim.lazy_constraint_subtour_elimination utils.min_sub_tour
  simp only [hcongr]
  by_cases hge : (tour.min_sub_tour snapshot.size snapshot).length ≥ snapshot.size
  · have hham := hiff.1 hge
    rw [if_pos hge]
    refine ⟨⟨?_, fun h => absurd hham h⟩, fun _ => rfl⟩
    rintro ⟨cut, hcut⟩
    cases hcut
  · have hham : ¬ hamiltonian snapshot := fun h => hge (hiff.2 h)
    rw [if_neg hge]
    exact ⟨⟨fun _ => hham, fun _ => ⟨_, rfl⟩⟩, fun h => absurd h hham⟩

/-- C3, an instance: the square, a single Hamiltonian cycle, receives no cut. -/
theorem cut_iff_not_hamiltonian_witness :
    3 ≤ example_square.size ∧ example_square.symmetric ∧ example_square.false_diagonal ∧
      example_square.degree_two ∧
      subtour_elim.lazy_constraint_subtour_elimination example_square.size (fun _ => false)
        example_square.get = none :=
  ⟨by decide, by decide, by decide, by decide,
    (cut_iff_not_hamiltonian example_square (fun _ => false) example_square.get
      (by decide) (by decide) (by decide) (by decide) (fun _ _ _ _ => rfl)).2
      ⟨[0, 1, 2, 3], by decide, by decide⟩⟩

/-- C4, cut soundness: for every `n` (a `size_t`), every matrix `h` that encodes a single
Hamiltonian cycle through all `n` vertices and every sequence `t` of distinct vertices
with `1 ≤ |t| < n`, the number of pairs `t[a]`, `t[b]` (`a < b`) that are edges of `h` is
strictly less than `|t|` and at most the bound `|t| − 1` of the cut of `t`; hence `h`
satisfies every cut that `lazy_constraint_subtour_elimination` emits on `n` vertices. -/
theorem cut_sound (h : utils.matrix Bool) (c t : List Nat) (hn : h.size < 2 ^ 64)
    (hvis : visits_all h.size c) (henc : encodes_cycle h c) (hnd : t.Nodup)
    (hlt : ∀ v, v ∈ t → v < h.size) (h1 : 1 ≤ t.length) (h2 : t.length < h.size) :
    subtour_elim.cut_lhs h t < t.length ∧
    subtour_elim.cut_lhs h t ≤ subtour_elim.cut_rhs t ∧
    (∀ raw get_solution cut,
      subtour_elim.lazy_constraint_subtour_elimination h.size raw get_solution = some cut →
      cut.expr.countP (fun p => h.get p.1 p.2) ≤ cut.rhs) := by
  have key : ∀ t2 : List Nat, t2.Nodup → (∀ v, v ∈ t2 → v < h.size) → 1 ≤ t2.length →
      t2.length < h.size → subtour_elim.cut_lhs h t2 ≤ subtour_elim.cut_rhs t2 := by
    intro t2 a b c2 d
    have := subtour_elim.cut_lhs_lt hvis henc a b c2 d
    unfold subtour_elim.cut_rhs
    omega
  refine ⟨subtour_elim.cut_lhs_lt hvis henc hnd hlt h1 h2, key t hnd hlt h1 h2, ?_⟩
  intro raw get_solution cut hcut
  have hb := tours_shape_aux h.size (utils.get_solutions h.size raw get_solution)
  unfold subtour_elim.lazy_constraint_subtour_elimination at hcut
  simp only [] at hcut
  have hlen : (utils.min_sub_tour h.size raw get_solution).length < h.size := by
    by_contra hge
    rw [if_pos (by omega)] at hcut
    cases hcut
  rw [if_neg (by omega)] at hcut
  simp only [Option.some.injEq] at hcut
  subst hcut
  exact key _ hb.1 hb.2.2 (hb.2.1 (by omega)) hlen

/-- C4, an instance: the square and the vertex pair `0, 1`. -/
theorem cut_sound_witness :
    visits_all example_square.size [0, 1, 2, 3] ∧ encodes_cycle example_square [0, 1, 2, 3] ∧
      subtour_elim.cut_lhs example_square [0, 1] < [0, 1].length :=
  ⟨by decide, by decide,
    (cut_sound example_square [0, 1, 2, 3] [0, 1] (by decide) (by decide) (by decide)
      (by decide) (by decide) (by decide) (by decide)).1⟩

/-- C11: for every size `n`, every initial buffer content and every edge oracle `g`, the
matrix built by `utils::get_solutions(n, g)` has size `n`, is symmetric with an all-false
diagonal, and for every `u < v < n` both entries `(u, v)` and `(v, u)` equal `g(u, v)`;
the oracle is called only on pairs with `u < v < n`, exactly once on each of them and
never on the mirrored pair, so the entries do not depend on `g` at other arguments (nor
on the initial buffer). -/
theorem get_solutions_symmetric (size : Nat) (raw : Nat → Bool) (g : Nat → Nat → Bool) :
    (utils.get_solutions size raw g).size = size ∧
    (utils.get_solutions size raw g).symmetric ∧
    (utils.get_solutions size raw g).false_diagonal ∧
    (∀ u v, u < v → v < size →
      (utils.get_solutions size raw g).get u v = g u v ∧
        (utils.get_solutions size raw g).get v u = g u v) ∧
    (utils.get_solutions_traced size raw g).1 = utils.get_solutions size raw g ∧
    (∀ p, p ∈ (utils.get_solutions_traced size raw g).2 → p.1 < p.2 ∧ p.2 < size) ∧
    (∀ u v, u < v → v < size →
      (utils.get_solutions_traced size raw g).2.count (u, v) = 1 ∧
        (utils.get_solutions_traced size raw g).2.count (v, u) = 0) ∧
    (∀ raw2 g2, (∀ u v, u < v → v < size → g2 u v = g u v) →
      ∀ a b, a < size → b < size →
        (utils.get_solutions size raw2 g2).get a b = (utils.get_solutions size raw g).get a b) := by
  have hsize := utils.get_solutions_size size raw g
  have hget := utils.get_solutions_get size raw g
  have htr := utils.get_solutions_traced_eq size raw g
  refine ⟨hsize, ?_, ?_, ?_, ?_, ?_, ?_, ?_⟩
  · intro u hu v hv
    rw [hsize] at hu hv
    rw [hget u v hu hv, hget v u hv hu]
    unfold utils.snapshot_entry
    by_cases h1 : u < v
    · have h2 : ¬ (v < u) := by omega
      rw [if_pos h1, if_neg h2, if_pos h1]
    · rw [if_neg h1]
      by_cases h2 : v < u
      · rw [if_pos h2, if_pos h2]
      · rw [if_neg h2, if_neg h2, if_neg h1]
  · intro u hu
    rw [hsize] at hu
    rw [hget u u hu hu]
    unfold utils.snapshot_entry
    simp
  · intro u v huv hv
    rw [hget u v (by omega) hv, hget v u hv (by omega)]
    unfold utils.snapshot_entry
    have h2 : ¬ (v < u) := by omega
    rw [if_pos huv, if_neg h2, if_pos huv]
    exact ⟨rfl, rfl⟩
  · rw [htr]
  · intro p hp
    rw [htr] at hp
    exact utils.mem_oracle_calls.1 hp
  · intro u v huv hv
    rw [htr]
    exact utils.count_oracle_calls huv hv
  · intro raw2 g2 hg a b ha hb
    rw [hget a b ha hb, utils.get_solutions_get size raw2 g2 a b ha hb]
    unfold utils.snapshot_entry
    by_cases h1 : a < b
    · rw [if_pos h1, if_pos h1, hg a b h1 hb]
    · rw [if_neg h1, if_neg h1]
      by_cases h2 : b < a
      · rw [if_pos h2, if_pos h2, hg b a h2 ha]
      · rw [if_neg h2, if_neg h2]

/-- C13, the claim as stated fails: on a `MIPSOL` event (code `4`) with five vertices and
both variants holding the cycles `(0,1,2)` and `(3,4)`, `callback` issues two lazy cuts,
one for each variant. -/
theorem callback_two_cuts :
    subtour_elim.callback 4 4 5 (fun _ _ => false) (fun _ => example_five.get) =
      [(0, { expr := [(3, 4)], rel := subtour_elim.sense.less_equal, rhs := 1 }),
       (1, { expr := [(3, 4)], rel := subtour_elim.sense.less_equal, rhs := 1 })] ∧
    ¬ (subtour_elim.callback 4 4 5 (fun _ _ => false) (fun _ => example_five.get)).length ≤ 1 := by
  decide

/-- C13 (amended): for every callback invocation (every event code and every pair of
candidate snapshots for variants 0 and 1), `subtour_elim::callback` issues at most two
lazy cuts in total, at most one for each variant, each being the cut of
`lazy_constraint_subtour_elimination` for its variant; it issues none when the event code
is not `GRB_CB_MIPSOL`. -/
theorem callback_at_most_two (mipsol where_code count : Nat) (raw : Nat → Nat → Bool)
    (x : Nat → Nat → Nat → Bool) :
    (subtour_elim.callback mipsol where_code count raw x).length ≤ 2 ∧
    (∀ i, (subtour_elim.callback mipsol where_code count raw x).countP
      (fun c => decide (c.1 = i)) ≤ 1) ∧
    (∀ i c, (i, c) ∈ subtour_elim.callback mipsol where_code count raw x →
      where_code = mipsol ∧ (i = 0 ∨ i = 1) ∧
        subtour_elim.lazy_constraint_subtour_elimination count (raw i) (x i) = some c) ∧
    (where_code ≠ mipsol → subtour_elim.callback mipsol where_code count raw x = []) := by
  unfold subtour_elim.callback
  by_cases hw : where_code = mipsol
  · rw [if_pos hw]
    cases h0 : subtour_elim.lazy_constraint_subtour_elimination count (raw 0) (x 0) <;>
      cases h1 : subtour_elim.lazy_constraint_subtour_elimination count (raw 1) (x 1)
    · refine ⟨by simp [subtour_elim.issued], fun i => by simp [subtour_elim.issued],
        fun i c hm => by simp [subtour_elim.issued] at hm, fun h => absurd hw h⟩
    · refine ⟨by simp [subtour_elim.issued], fun i => ?_, fun i c hm => ?_,
        fun h => absurd hw h⟩
      · simp only [subtour_elim.issued, List.nil_append, List.countP_cons, List.countP_nil]
        split <;> omega
      · simp only [subtour_elim.issued, List.nil_append, List.mem_singleton,
          Prod.mk.injEq] at hm
        obtain ⟨rfl, rfl⟩ := hm
        exact ⟨hw, Or.inr rfl, h1⟩
    · refine ⟨by simp [subtour_elim.issued], fun i => ?_, fun i c hm => ?_,
        fun h => absurd hw h⟩
      · simp only [subtour_elim.issued, List.append_nil, List.countP_cons, List.countP_nil]
        split <;> omega
      · simp only [subtour_elim.issued, List.append_nil, List.mem_singleton,
          Prod.mk.injEq] at hm
        obtain ⟨rfl, rfl⟩ := hm
        exact ⟨hw, Or.inl rfl, h0⟩
    · refine ⟨by simp [subtour_elim.issued], fun i => ?_, fun i c hm => ?_,
        fun h => absurd hw h⟩
      · simp only [subtour_elim.issued, List.singleton_append, List.countP_cons,
          List.countP_nil, decide_eq_true_eq]
        by_cases hi0 : (0 : Nat) = i
        · have hi1 : ¬ ((1 : Nat) = i) := by omega
          simp [hi0, hi1]
        · simp only [hi0, if_false]
          split <;> omega
      · simp only [subtour_elim.issued, List.singleton_append, List.mem_cons,
          List.mem_singleton, Prod.mk.injEq, List.not_mem_nil, or_false] at hm
        rcases hm with ⟨rfl, rfl⟩ | ⟨rfl, rfl⟩
        · exact ⟨hw, Or.inl rfl, h0⟩
        · exact ⟨hw, Or.inr rfl, h1⟩
  · rw [if_neg hw]
    exact ⟨by simp, fun i => by simp, fun i c hm => by simp at hm, fun _ => rfl⟩

/-- C12: the emitted cut excludes the candidate that triggered it.  For every `n ≥ 3` (a
`size_t`) and every symmetric adjacency snapshot with a false diagonal and exactly two
true entries per vertex that is not a single Hamiltonian cycle, the minimum tour `C`
returned by the decomposer is a closed cycle of the snapshot (consecutive entries, and the
last with the first, are adjacent), the number of selected edges among the pairs of `C`
equals `|C|`, a cut is emitted with bound `|C| − 1`, and the snapshot violates it. -/
theorem cut_excludes_candidate (snapshot : utils.matrix Bool) (raw : Nat → Bool)
    (get_solution : Nat → Nat → Bool) (hn : snapshot.size < 2 ^ 64)
    (h3 : 3 ≤ snapshot.size) (hsym : snapshot.symmetric) (hdiag : snapshot.false_diagonal)
    (hdeg : snapshot.degree_two)
    (hg : ∀ u v, u < v → v < snapshot.size → get_solution u v = snapshot.get u v)
    (hnot : ¬ hamiltonian snapshot) :
    closed_cycle snapshot (utils.min_sub_tour snapshot.size raw get_solution) ∧
    subtour_elim.cut_lhs snapshot (utils.min_sub_tour snapshot.size raw get_solution) =
      (utils.min_sub_tour snapshot.size raw get_solution).length ∧
    ∃ cut, subtour_elim.lazy_constraint_subtour_elimination snapshot.size raw get_solution =
        some cut ∧
      cut.expr.countP (fun p => snapshot.get p.1 p.2) =
        (utils.min_sub_tour snapshot.size raw get_solution).length ∧
      cut.rhs + 1 = (utils.min_sub_tour snapshot.size raw get_solution).length ∧
      ¬ cut.expr.countP (fun p => snapshot.get p.1 p.2) ≤ cut.rhs := by
  have hcongr : utils.min_sub_tour snapshot.size raw get_solution =
      tour.min_sub_tour snapshot.size snapshot :=
    (tour.min_sub_tour_congr
      (utils.get_solutions_of_symmetric raw get_solution hsym hdiag hg)).1
  have hmem := tour.min_sub_tour_mem_all_tours snapshot (by omega : 0 < snapshot.size)
  obtain ⟨hlen3, hcc, hin⟩ := tour.all_tours_closed hsym hdiag hdeg _ hmem
  obtain ⟨hnd, _, hlt⟩ := tours_shape_aux snapshot.size snapshot
  have hlhs := subtour_elim.cut_lhs_eq_length hsym hdiag hdeg hnd hlt hin
  have hshort : ¬ (tour.min_sub_tour snapshot.size snapshot).length ≥ snapshot.size :=
    fun hge => hnot ((tour.min_sub_tour_full_iff h3 hsym hdiag hdeg).1 hge)
  rw [hcongr]
  refine ⟨hcc, hlhs, ?_⟩
  unfold subtour_elim.lazy_constraint_subtour_elimination
  simp only [hcongr]
  rw [if_neg hshort]
  refine ⟨_, rfl, hlhs, ?_, ?_⟩
  · show ((tour.min_sub_tour snapshot.size snapshot).length + (2 ^ 64 - 1)) % 2 ^ 64 + 1 = _
    omega
  · show ¬ subtour_elim.cut_lhs snapshot (tour.min_sub_tour snapshot.size snapshot) ≤
      ((tour.min_sub_tour snapshot.size snapshot).length + (2 ^ 64 - 1)) % 2 ^ 64
    rw [hlhs]
    omega

/-- C12, an instance: two triangles on six vertices; the cut of the first triangle is
violated by the snapshot. -/
theorem cut_excludes_candidate_witness :
    3 ≤ example_triangles.size ∧ example_triangles.symmetric ∧
      example_triangles.false_diagonal ∧ example_triangles.degree_two ∧
      ¬ hamiltonian example_triangles ∧
      closed_cycle example_triangles
        (utils.min_sub_tour example_triangles.size (fun _ => false) example_triangles.get) :=
  ⟨by decide, by decide, by decide, by decide,
    fun hh => absurd ((tour.min_sub_tour_full_iff (m := example_triangles) (by decide)
      (by decide) (by decide) (by decide)).2 hh) (by decide),
    (cut_excludes_candidate example_triangles (fun _ => false) example_triangles.get
      (by decide) (by decide) (by decide) (by decide) (by decide) (fun _ _ _ _ => rfl)
      (fun hh => absurd ((tour.min_sub_tour_full_iff (m := example_triangles) (by decide)
        (by decide) (by decide) (by decide)).2 hh) (by decide))).1⟩
